import Mathlib

/-!
# Verification of `cdl_list_rs` (circular doubly linked list)

Shallow embedding of `src/cdl_list.rs`. The Rust code builds a circular
doubly linked list out of `Rc<RefCell<Node<T>>>` cells; links are tagged
either `StrongLink` (owning, `Rc`) or `WeakLink` (observing, `Weak`).
We model the `Rc`/`RefCell` heap explicitly: a heap is a list of cells
indexed by allocation order (`Ptr := Nat`); a cell is `some node` while the
node is alive and `none` once the node has been consumed
(`Rc::try_unwrap` + `into_inner`).  Fallible steps of the Rust code
(`Option::unwrap`, `Weak::upgrade(..).unwrap()`, the `unreachable!` arms)
are modelled by `Option`: a `none` result of an operation means the Rust
code would have panicked on that input.
-/

namespace CdlRs

/-- Heap address of a node cell (`Rc`/`Weak` target), in allocation order. -/
abbrev Ptr := Nat

/-- `enum LinkType<T> { StrongLink(Rc<RefCell<T>>), WeakLink(Weak<RefCell<T>>) }`:
a link is either owning (strong) or observing (weak); in the model both
carry the heap address of their target. -/
inductive LinkType where
  | StrongLink (p : Ptr)
  | WeakLink (p : Ptr)
deriving DecidableEq, Repr

/-- `struct Node<T> { next: Option<LinkType<..>>, prev: Option<LinkType<..>>, data: T }` -/
structure Node (T : Type) where
  next : Option LinkType
  prev : Option LinkType
  data : T
deriving DecidableEq, Repr

/-- The `Rc` heap: cell `p` is `some n` while node `n` (allocated as the
`p`-th allocation) is alive, `none` after it has been freed. -/
abbrev Heap (T : Type) := List (Option (Node T))

/-- Dereference a pointer (`borrow` / `Weak::upgrade`): `none` if the cell
was never allocated or the node has been freed. -/
def readNode (h : Heap T) (p : Ptr) : Option (Node T) :=
  h.getD p none

/-- Overwrite the node stored at `p` (a `borrow_mut` field assignment). -/
def writeNode (h : Heap T) (p : Ptr) (n : Node T) : Heap T :=
  h.set p (some n)

/-- Consume the node at `p` (`Rc::try_unwrap(..).ok().unwrap().into_inner()`). -/
def freeNode (h : Heap T) (p : Ptr) : Heap T :=
  h.set p none

/-- Allocate a fresh cell (`Rc::new(RefCell::new(n))`): returns the new heap
and the address of the new cell. -/
def alloc (h : Heap T) (n : Node T) : Heap T × Ptr :=
  (h ++ [some n], h.length)

/-- The `next` field of the node at `p` (outer `none`: dead cell). -/
def nextOf (h : Heap T) (p : Ptr) : Option (Option LinkType) :=
  (readNode h p).map Node.next

/-- The `prev` field of the node at `p` (outer `none`: dead cell). -/
def prevOf (h : Heap T) (p : Ptr) : Option (Option LinkType) :=
  (readNode h p).map Node.prev

/-- The payload of the node at `p` (`none`: dead cell). -/
def dataOf (h : Heap T) (p : Ptr) : Option T :=
  (readNode h p).map Node.data

/-- `pub struct CdlList<T> { head: Option<Rc<..>>, tail: Option<Rc<..>>, size: usize }`
together with the backing `Rc` heap. -/
structure CdlList (T : Type) where
  store : Heap T
  head : Option Ptr
  tail : Option Ptr
  size : Nat
deriving DecidableEq, Repr

namespace CdlList

/-- `CdlList::new()` -/
def new : CdlList T :=
  { store := [], head := none, tail := none, size := 0 }

/-- `CdlList::is_empty()` -/
def is_empty (l : CdlList T) : Bool :=
  l.size == 0

/-- `CdlList::push(t, insert_front)` (private helper behind `push_front` /
`push_back`).  Returns `none` if an `unwrap` in the Rust code would panic. -/
def push (l : CdlList T) (t : T) (insert_front : Bool) : Option (CdlList T) :=
  let (h1, ref_n) := alloc l.store (Node.mk none none t)
  if l.is_empty then
    -- node's next and prev links point to self, as weak links
    let h2 := writeNode h1 ref_n
      (Node.mk (some (LinkType.WeakLink ref_n)) (some (LinkType.WeakLink ref_n)) t)
    some { store := h2, head := some ref_n, tail := some ref_n, size := l.size + 1 }
  else do
    let head_ref ← l.head
    let tail_ref ← l.tail
    if insert_front then do
      -- node->prev = current tail; node->next is a strong link to head
      let h2 := writeNode h1 ref_n
        (Node.mk (some (LinkType.StrongLink head_ref)) (some (LinkType.WeakLink tail_ref)) t)
      -- adjust head->prev to point to node
      let hn ← readNode h2 head_ref
      let h3 := writeNode h2 head_ref { hn with prev := some (LinkType.WeakLink ref_n) }
      -- special case: head->next is not accurate for size==1
      let h4 ← if l.size == 1 then do
          let hn2 ← readNode h3 head_ref
          pure (writeNode h3 head_ref { hn2 with next := some (LinkType.WeakLink ref_n) })
        else pure h3
      some { store := h4, head := some ref_n, tail := l.tail, size := l.size + 1 }
    else do
      -- node->prev = current tail; node->next is a weak link to head
      let h2 := writeNode h1 ref_n
        (Node.mk (some (LinkType.WeakLink head_ref)) (some (LinkType.WeakLink tail_ref)) t)
      -- adjust tail->next to point to node
      let tn ← readNode h2 tail_ref
      let h3 := writeNode h2 tail_ref { tn with next := some (LinkType.StrongLink ref_n) }
      -- special case: tail->prev is not accurate for size==1
      let h4 ← if l.size == 1 then do
          let tn2 ← readNode h3 tail_ref
          pure (writeNode h3 tail_ref { tn2 with prev := some (LinkType.WeakLink ref_n) })
        else pure h3
      some { store := h4, head := l.head, tail := some ref_n, size := l.size + 1 }

/-- `CdlList::push_front(t)` -/
def push_front (l : CdlList T) (t : T) : Option (CdlList T) :=
  l.push t true

/-- `CdlList::push_back(t)` -/
def push_back (l : CdlList T) (t : T) : Option (CdlList T) :=
  l.push t false

/-- `CdlList::pop(pop_front)` (private helper behind `pop_front` /
`pop_back`).  The outer `Option` is the panic monad (`none` iff an
`unwrap` / `unreachable!` fires); the inner `Option T` is the Rust return
value. -/
def pop (l : CdlList T) (pop_front : Bool) : Option (Option T × CdlList T) :=
  -- nothing to pop if the list is empty!
  if l.is_empty then
    some (none, l)
  else
    -- decrement list size before value is returned
    let sz := l.size - 1
    if sz == 0 then do
      -- true list size is 1: head and tail are the two strong links;
      -- drop head, take ownership through tail
      let _hd ← l.head
      let tl ← l.tail
      let node ← readNode l.store tl
      let h1 := freeNode l.store tl
      some (some node.data, { store := h1, head := none, tail := none, size := sz })
    else if pop_front then do
      -- pop head: strong count for head is 1, take ownership of its node
      let hd ← l.head
      let node ← readNode l.store hd
      let h1 := freeNode l.store hd
      let nx ← node.next
      match nx with
      | LinkType.StrongLink sl => do
          -- node->next->prev = tail
          let tl ← l.tail
          let sn ← readNode h1 sl
          let h2 := writeNode h1 sl { sn with prev := some (LinkType.WeakLink tl) }
          -- tail->next = node->next
          let tn ← readNode h2 tl
          let h3 := writeNode h2 tl { tn with next := some (LinkType.WeakLink sl) }
          -- adjust head pointer
          some (some node.data, { store := h3, head := some sl, tail := l.tail, size := sz })
      | LinkType.WeakLink _ =>
          -- unreachable!("head->next is always a strong link for list size > 1")
          none
    else do
      -- pop tail: must break tail->prev->next before consuming tail
      let tl ← l.tail
      let tnode ← readNode l.store tl
      let pv ← tnode.prev
      let h1 ← match pv with
        | LinkType.WeakLink wl => do
            let up ← readNode l.store wl
            let hd ← l.head
            -- tail->prev->next = (weak link to) head
            pure (writeNode l.store wl { up with next := some (LinkType.WeakLink hd) })
        | LinkType.StrongLink _ =>
            -- unreachable!("All prev links are weak links")
            none
      -- now strong count of tail is 1: take ownership of the node
      let node ← readNode h1 tl
      let h2 := freeNode h1 tl
      let pv2 ← node.prev
      match pv2 with
      | LinkType.WeakLink wl => do
          -- head->prev = prev
          let hd ← l.head
          let hn ← readNode h2 hd
          let h3 := writeNode h2 hd { hn with prev := some (LinkType.WeakLink wl) }
          -- adjust tail pointer (Weak::upgrade(..).unwrap())
          let _up ← readNode h3 wl
          some (some node.data, { store := h3, head := l.head, tail := some wl, size := sz })
      | LinkType.StrongLink _ =>
          -- unreachable!("All prev links are weak links")
          none

/-- `CdlList::pop_front()` -/
def pop_front (l : CdlList T) : Option (Option T × CdlList T) :=
  l.pop true

/-- `CdlList::pop_back()` -/
def pop_back (l : CdlList T) : Option (Option T × CdlList T) :=
  l.pop false

/-- `CdlList::peek(peek_front)`: returns a read-only view of the head's /
tail's data.  `peek` takes `&self` in Rust, so the model returns only the
observed value and no new list state. -/
def peek (l : CdlList T) (peek_front : Bool) : Option T :=
  if l.is_empty then
    none
  else if peek_front then
    l.head.bind (fun p => (readNode l.store p).map Node.data)
  else
    l.tail.bind (fun p => (readNode l.store p).map Node.data)

/-- `CdlList::peek_front()` -/
def peek_front (l : CdlList T) : Option T :=
  l.peek true

/-- `CdlList::peek_back()` -/
def peek_back (l : CdlList T) : Option T :=
  l.peek false

end CdlList

/-- The `while count < index-1` walk of `insert_at`: follow `k` strong
`next` links from `p`; a missing node, a missing `next` link or a weak
`next` link on the way is the `unreachable!` / `unwrap` panic. -/
def walkStrong (h : Heap T) : Ptr → Nat → Option Ptr
  | p, 0 => some p
  | p, k + 1 => do
      let n ← readNode h p
      match n.next with
      | some (LinkType.StrongLink q) => walkStrong h q k
      | _ => none

namespace CdlList

/-- `CdlList::insert_at(index, val)` -/
def insert_at (l : CdlList T) (index : Nat) (val : T) : Option (CdlList T) :=
  if index == 0 then
    l.push_front val
  else if index == l.size then
    l.push_back val
  else if index > l.size then
    -- should probably throw an error; silently ignored
    some l
  else do
    -- create new node
    let (h1, ref_n) := alloc l.store (Node.mk none none val)
    -- get the node before insertion point
    let hd ← l.head
    let node_ref ← walkStrong h1 hd (index - 1)
    -- need to modify node_ref->next
    let pn ← readNode h1 node_ref
    let nx ← pn.next
    match nx with
    | LinkType.StrongLink sl => do
        let sn ← readNode h1 sl
        -- change old links
        let h2 := writeNode h1 node_ref { pn with next := some (LinkType.StrongLink ref_n) }
        let h3 := writeNode h2 sl { sn with prev := some (LinkType.WeakLink ref_n) }
        -- set new links
        let h4 := writeNode h3 ref_n
          (Node.mk (some (LinkType.StrongLink sl)) (some (LinkType.WeakLink node_ref)) val)
        some { store := h4, head := l.head, tail := l.tail, size := l.size + 1 }
    | LinkType.WeakLink _ =>
        -- unreachable!("All intermediary nodes have strong links to next.")
        none

end CdlList

/-- The body of `impl Display for CdlList`: `k` loop iterations; each
iteration renders the payload of the current node, then follows `next`
when it is a strong link and stays in place when it is a weak link. -/
def displayAux (h : Heap T) : Ptr → Nat → Option (List T)
  | _, 0 => some []
  | p, k + 1 => do
      let n ← readNode h p
      let nx ← n.next
      let rest ← match nx with
        | LinkType.StrongLink sl => displayAux h sl k
        | LinkType.WeakLink _ => displayAux h p k
      some (n.data :: rest)

namespace CdlList

/-- `impl Display for CdlList`: the sequence of payloads rendered by the
`fmt` loop (empty list renders "None", i.e. no payloads).  `fmt` takes
`&self`, so the model returns only the rendered payloads. -/
def display (l : CdlList T) : Option (List T) :=
  if l.is_empty then
    some []
  else do
    let hd ← l.head
    displayAux l.store hd l.size

/-- Modelled from the spec: `CdlList::remove_at` is referenced by the crate
documentation and the tests in `src/lib.rs`, but its implementation is not
present under `src/` (`src/cdl_list.rs` ends after `insert_at`).  Modelled
from spec §4.6: `index >= size` → absence (no-op); `index == 0` →
`pop_front`; `index == size-1` → `pop_back`; otherwise walk to the
predecessor (`index-1` steps), redirect the predecessor's owning `next`
directly to the target's successor, set the successor's `prev` to observe
the predecessor, extract and return the target's value, decrement `size`. -/
def remove_at (l : CdlList T) (index : Nat) : Option (Option T × CdlList T) :=
  if index ≥ l.size then
    some (none, l)
  else if index == 0 then
    l.pop_front
  else if index == l.size - 1 then
    l.pop_back
  else do
    let hd ← l.head
    let pred ← walkStrong l.store hd (index - 1)
    let pn ← readNode l.store pred
    let nx ← pn.next
    match nx with
    | LinkType.StrongLink target => do
        let tn ← readNode l.store target
        let nx2 ← tn.next
        match nx2 with
        | LinkType.StrongLink succ => do
            let sn ← readNode l.store succ
            let h1 := writeNode l.store pred { pn with next := some (LinkType.StrongLink succ) }
            let h2 := writeNode h1 succ { sn with prev := some (LinkType.WeakLink pred) }
            let h3 := freeNode h2 target
            some (some tn.data,
              { store := h3, head := l.head, tail := l.tail, size := l.size - 1 })
        | _ => none
    | _ => none

end CdlList

/-! ## Operation sequences and round-trip helpers -/

/-- A public mutating push/pop call, as issued by client code. -/
inductive Op (T : Type) where
  | pushFrontOp (t : T)
  | pushBackOp (t : T)
  | popFrontOp
  | popBackOp

/-- Run one operation; the `Nat` is 1 when a pop returned a value, else 0. -/
def applyOp (l : CdlList T) : Op T → Option (CdlList T × Nat)
  | Op.pushFrontOp t => (l.push_front t).map (fun l' => (l', 0))
  | Op.pushBackOp t => (l.push_back t).map (fun l' => (l', 0))
  | Op.popFrontOp => l.pop_front.map (fun r => (r.2, if r.1.isSome then 1 else 0))
  | Op.popBackOp => l.pop_back.map (fun r => (r.2, if r.1.isSome then 1 else 0))

/-- Run a sequence of operations from `l`, counting successful pops. -/
def runOps (l : CdlList T) : List (Op T) → Option (CdlList T × Nat)
  | [] => some (l, 0)
  | op :: ops => do
      let (l', k) ← applyOp l op
      let (l'', k') ← runOps l' ops
      some (l'', k + k')

/-- Number of pushes in an operation sequence. -/
def numPushes : List (Op T) → Nat
  | [] => 0
  | Op.pushFrontOp _ :: ops => numPushes ops + 1
  | Op.pushBackOp _ :: ops => numPushes ops + 1
  | Op.popFrontOp :: ops => numPushes ops
  | Op.popBackOp :: ops => numPushes ops

/-- Push every element of `ts` in order (`front` selects `push_front`). -/
def pushAll (l : CdlList T) (front : Bool) : List T → Option (CdlList T)
  | [] => some l
  | t :: ts => (l.push t front).bind (fun l' => pushAll l' front ts)

/-- Pop `n` times (`front` selects `pop_front`), collecting the returned
values in order. -/
def popN (l : CdlList T) (front : Bool) : Nat → Option (List (Option T))
  | 0 => some []
  | n + 1 => do
      let (r, l') ← l.pop front
      let rest ← popN l' front n
      some (r :: rest)

/-! ## Concrete states used in the examples -/

/-- `new()` followed by `push_front(1); push_front(2); push_front(3)`. -/
def threePushFront : Option (CdlList Nat) :=
  ((CdlList.new.push_front 1).bind (fun l => l.push_front 2)).bind
    (fun l => l.push_front 3)

/-- The concrete state produced by `new(); push_back(1); push_back(2)`. -/
def exList2 : CdlList Nat :=
  CdlList.mk
    [some (Node.mk (some (LinkType.StrongLink 1)) (some (LinkType.WeakLink 1)) 1),
     some (Node.mk (some (LinkType.WeakLink 0)) (some (LinkType.WeakLink 0)) 2)]
    (some 0) (some 1) 2

/-! ## The representation invariant

`WfP l ps vs` says the heap of `l` lays out the pointer chain `ps` holding
the payloads `vs` (front to back), exactly as the source maintains it:

* consecutive nodes are linked by a strong (owning) `next` and a weak
  (observing) `prev` back-reference;
* the final (tail) node's `next` and the first (head) node's `prev` are
  weak links, self-referencing when the list is a singleton;
* `head`/`tail` of the handle point at the first/last chain node;
* the chain pointers are pairwise distinct (each node visited once).
-/

/-- Node `q` follows node `p`: `p`'s `next` owns `q`, `q`'s `prev` observes `p`. -/
def pairOk (h : Heap T) (p q : Ptr) : Prop :=
  nextOf h p = some (some (LinkType.StrongLink q)) ∧
  prevOf h q = some (some (LinkType.WeakLink p))

/-- Every consecutive pair of chain pointers is properly linked. -/
def linksOk (h : Heap T) : List Ptr → Prop
  | p :: q :: ps => pairOk h p q ∧ linksOk h (q :: ps)
  | _ => True

/-- The chain pointers hold exactly the payloads `vs`, in order, all alive. -/
def dataOk (h : Heap T) : List Ptr → List T → Prop
  | [], [] => True
  | p :: ps, v :: vs => dataOf h p = some v ∧ dataOk h ps vs
  | _, _ => False

/-- The link field of a live node is present and is a weak (observing) link. -/
def isWeakLink : Option (Option LinkType) → Prop
  | some (some (LinkType.WeakLink _)) => True
  | _ => False

/-- The wrap-around edges: the tail's `next` and the head's `prev` are weak
links; for a singleton both are weak self-references. -/
def wrapOk (h : Heap T) : List Ptr → Prop
  | [] => True
  | [p] => nextOf h p = some (some (LinkType.WeakLink p)) ∧
           prevOf h p = some (some (LinkType.WeakLink p))
  | p :: q :: ps =>
      isWeakLink (nextOf h ((q :: ps).getLast (List.cons_ne_nil q ps))) ∧
      isWeakLink (prevOf h p)

/-- Full representation invariant with an explicit pointer chain. -/
def WfP (l : CdlList T) (ps : List Ptr) (vs : List T) : Prop :=
  l.size = vs.length ∧ ps.length = vs.length ∧
  l.head = ps.head? ∧ l.tail = ps.getLast? ∧ ps.Nodup ∧
  dataOk l.store ps vs ∧ linksOk l.store ps ∧ wrapOk l.store ps

/-- The list `l` represents the value sequence `vs` (front to back). -/
def Wf (l : CdlList T) (vs : List T) : Prop :=
  ∃ ps, WfP l ps vs

/-! ## Basic heap lemmas -/

theorem readNode_set (h : Heap T) (p q : Ptr) (x : Option (Node T)) :
    readNode (h.set p x) q = if p = q ∧ p < h.length then x else readNode h q := by
  induction h generalizing p q with
  | nil => simp [readNode]
  | cons a t ih =>
      cases p with
      | zero =>
          cases q with
          | zero => simp [readNode]
          | succ q' => simp [readNode, List.set]
      | succ p' =>
          cases q with
          | zero => simp [readNode, List.set]
          | succ q' =>
              have hih := ih p' q'
              simp only [readNode] at hih
              simp only [List.set, readNode, List.getD_cons_succ, List.length_cons]
              rw [hih]
              simp [Nat.succ_lt_succ_iff]

theorem readNode_writeNode_self (h : Heap T) (p : Ptr) (n : Node T) (hp : p < h.length) :
    readNode (writeNode h p n) p = some n := by
  simp [writeNode, readNode_set, hp]

theorem readNode_writeNode_ne (h : Heap T) {p q : Ptr} (n : Node T) (hpq : p ≠ q) :
    readNode (writeNode h p n) q = readNode h q := by
  simp [writeNode, readNode_set, hpq]

theorem readNode_freeNode_self (h : Heap T) (p : Ptr) :
    readNode (freeNode h p) p = none := by
  by_cases hp : p < h.length
  · simp [freeNode, readNode_set, hp]
  · simp only [freeNode, readNode_set, hp, and_false, if_false]
    have : h.length ≤ p := Nat.le_of_not_lt hp
    simp [readNode, List.getD_eq_getElem?_getD, List.getElem?_eq_none this]

theorem readNode_freeNode_ne (h : Heap T) {p q : Ptr} (hpq : p ≠ q) :
    readNode (freeNode h p) q = readNode h q := by
  simp [freeNode, readNode_set, hpq]

theorem readNode_append_lt (h h' : Heap T) {p : Ptr} (hp : p < h.length) :
    readNode (h ++ h') p = readNode h p := by
  simp [readNode, List.getD_eq_getElem?_getD, List.getElem?_append, hp]

theorem readNode_append_self (h : Heap T) (x : Option (Node T)) :
    readNode (h ++ [x]) h.length = x := by
  simp [readNode, List.getD_eq_getElem?_getD, List.getElem?_append_right (Nat.le_refl _)]

theorem lt_length_of_readNode_eq_some {h : Heap T} {p : Ptr} {n : Node T}
    (hr : readNode h p = some n) : p < h.length := by
  by_contra hlt
  have : h.length ≤ p := Nat.le_of_not_lt hlt
  simp [readNode, List.getD_eq_getElem?_getD, List.getElem?_eq_none this] at hr


/-! ## Chain lemmas -/

theorem nextOf_eq_some {h : Heap T} {p : Ptr} {x : Option LinkType} :
    nextOf h p = some x ↔ ∃ n, readNode h p = some n ∧ n.next = x := by
  simp [nextOf, Option.map_eq_some']

theorem prevOf_eq_some {h : Heap T} {p : Ptr} {x : Option LinkType} :
    prevOf h p = some x ↔ ∃ n, readNode h p = some n ∧ n.prev = x := by
  simp [prevOf, Option.map_eq_some']

theorem dataOf_eq_some {h : Heap T} {p : Ptr} {v : T} :
    dataOf h p = some v ↔ ∃ n, readNode h p = some n ∧ n.data = v := by
  simp [dataOf, Option.map_eq_some']

theorem dataOk_length {h : Heap T} :
    ∀ {ps : List Ptr} {vs : List T}, dataOk h ps vs → ps.length = vs.length := by
  intro ps
  induction ps with
  | nil => intro vs hd; cases vs with
      | nil => rfl
      | cons v vs => exact absurd hd (by simp [dataOk])
  | cons p ps ih => intro vs hd; cases vs with
      | nil => exact absurd hd (by simp [dataOk])
      | cons v vs => simpa using ih hd.2

theorem dataOk_valid {h : Heap T} :
    ∀ {ps : List Ptr} {vs : List T}, dataOk h ps vs →
      ∀ p ∈ ps, ∃ n, readNode h p = some n := by
  intro ps
  induction ps with
  | nil => simp
  | cons q ps ih =>
      intro vs hd p hp
      cases vs with
      | nil => exact absurd hd (by simp [dataOk])
      | cons v vs =>
          rcases hd with ⟨hq, hrest⟩
          rcases List.mem_cons.mp hp with rfl | hmem
          · rcases dataOf_eq_some.mp hq with ⟨n, hn, _⟩
            exact ⟨n, hn⟩
          · exact ih hrest p hmem

theorem dataOk_congr {h h' : Heap T} :
    ∀ {ps : List Ptr} {vs : List T},
      (∀ p ∈ ps, dataOf h' p = dataOf h p) → dataOk h ps vs → dataOk h' ps vs := by
  intro ps
  induction ps with
  | nil => intro vs _ hd; cases vs with
      | nil => trivial
      | cons v vs => exact absurd hd (by simp [dataOk])
  | cons p ps ih =>
      intro vs hcongr hd
      cases vs with
      | nil => exact absurd hd (by simp [dataOk])
      | cons v vs =>
          refine ⟨?_, ih (fun q hq => hcongr q (List.mem_cons_of_mem _ hq)) hd.2⟩
          rw [hcongr p (List.mem_cons_self _ _)]
          exact hd.1

theorem linksOk_congr {h h' : Heap T} :
    ∀ {ps : List Ptr},
      (∀ p ∈ ps.dropLast, nextOf h' p = nextOf h p) →
      (∀ p ∈ ps.tail, prevOf h' p = prevOf h p) →
      linksOk h ps → linksOk h' ps := by
  intro ps
  induction ps with
  | nil => intro _ _ _; trivial
  | cons p ps ih =>
      cases ps with
      | nil => intro _ _ _; trivial
      | cons q ps' =>
          intro hnext hprev hl
          refine ⟨⟨?_, ?_⟩, ?_⟩
          · rw [hnext p (by simp [List.dropLast])]
            exact hl.1.1
          · rw [hprev q (by simp)]
            exact hl.1.2
          · refine ih (fun r hr => hnext r ?_) (fun r hr => hprev r ?_) hl.2
            · simpa [List.dropLast] using List.mem_cons_of_mem p hr
            · exact List.mem_of_mem_tail (by simpa using hr)

theorem linksOk_append {h : Heap T} :
    ∀ {xs : List Ptr} {a b : Ptr} {ys : List Ptr},
      xs.getLast? = some a → ys.head? = some b →
      (linksOk h (xs ++ ys) ↔ linksOk h xs ∧ pairOk h a b ∧ linksOk h ys) := by
  intro xs
  induction xs with
  | nil => intro a b ys hlast; simp at hlast
  | cons x xs ih =>
      intro a b ys hlast hhead
      cases xs with
      | nil =>
          simp only [List.getLast?_singleton, Option.some_inj] at hlast
          cases ys with
          | nil => simp at hhead
          | cons y ys' =>
              simp only [List.head?_cons, Option.some_inj] at hhead
              rw [← hlast, ← hhead]
              show linksOk h (x :: y :: ys') ↔ linksOk h [x] ∧ pairOk h x y ∧ linksOk h (y :: ys')
              simp [linksOk]
      | cons x' xs' =>
          have hlast' : (x' :: xs').getLast? = some a := by
            rwa [List.getLast?_cons_cons] at hlast
          have heq : (x :: x' :: xs') ++ ys = x :: ((x' :: xs') ++ ys) := rfl
          rw [heq]
          have hcons : (x' :: xs') ++ ys = x' :: (xs' ++ ys) := rfl
          constructor
          · intro hl
            rw [hcons] at hl
            have h2 := (ih hlast' hhead).mp (by rw [hcons]; exact hl.2)
            exact ⟨⟨hl.1, h2.1⟩, h2.2.1, h2.2.2⟩
          · intro ⟨⟨hp, hxs⟩, hab, hys⟩
            rw [hcons]
            exact ⟨hp, by rw [← hcons]; exact (ih hlast' hhead).mpr ⟨hxs, hab, hys⟩⟩

theorem dataOk_append {h : Heap T} :
    ∀ {xs : List Ptr} {us : List T} {ys : List Ptr} {vs : List T},
      xs.length = us.length →
      (dataOk h (xs ++ ys) (us ++ vs) ↔ dataOk h xs us ∧ dataOk h ys vs) := by
  intro xs
  induction xs with
  | nil => intro us ys vs hlen
           cases us with
           | nil => simp [dataOk]
           | cons u us => simp at hlen
  | cons x xs ih =>
      intro us ys vs hlen
      cases us with
      | nil => simp at hlen
      | cons u us =>
          simp only [List.length_cons, Nat.succ_inj'] at hlen
          show dataOk h (x :: (xs ++ ys)) (u :: (us ++ vs)) ↔ _
          show (dataOf h x = some u ∧ dataOk h (xs ++ ys) (us ++ vs)) ↔ _
          rw [ih hlen]
          show _ ↔ ((dataOf h x = some u ∧ dataOk h xs us) ∧ _)
          tauto

theorem linksOk_pair {h : Heap T} :
    ∀ {ps : List Ptr}, linksOk h ps →
      ∀ {i : Nat} {p q : Ptr}, ps[i]? = some p → ps[i + 1]? = some q → pairOk h p q := by
  intro ps
  induction ps with
  | nil => intro _ i p q hp; simp at hp
  | cons x rest ih =>
      intro hl i p q hp hq
      cases i with
      | zero =>
          simp only [List.getElem?_cons_zero, Option.some_inj] at hp
          subst hp
          simp only [List.getElem?_cons_succ] at hq
          cases rest with
          | nil => simp at hq
          | cons y rest' =>
              simp only [List.getElem?_cons_zero, Option.some_inj] at hq
              subst hq
              exact hl.1
      | succ i' =>
          simp only [List.getElem?_cons_succ] at hp hq
          cases rest with
          | nil => simp at hp
          | cons y rest' => exact ih hl.2 hp hq

theorem dataOk_get {h : Heap T} :
    ∀ {ps : List Ptr} {vs : List T}, dataOk h ps vs →
      ∀ {i : Nat} {p : Ptr}, ps[i]? = some p → dataOf h p = vs[i]? := by
  intro ps
  induction ps with
  | nil => intro vs _ i p hp; simp at hp
  | cons x rest ih =>
      intro vs hd i p hp
      cases vs with
      | nil => exact absurd hd (by simp [dataOk])
      | cons v vs' =>
          cases i with
          | zero =>
              simp only [List.getElem?_cons_zero, Option.some_inj] at hp
              subst hp
              simpa using hd.1
          | succ i' =>
              simp only [List.getElem?_cons_succ] at hp ⊢
              exact ih hd.2 hp

theorem walkStrong_chain {h : Heap T} :
    ∀ {i : Nat} {ps : List Ptr} {vs : List T} {p : Ptr},
      dataOk h ps vs → linksOk h ps → ps.head? = some p →
      i < ps.length → walkStrong h p i = ps[i]? := by
  intro i
  induction i with
  | zero =>
      intro ps vs p _ _ hhead _
      cases ps with
      | nil => simp at hhead
      | cons x rest =>
          simp only [List.head?_cons, Option.some_inj] at hhead
          subst hhead
          simp [walkStrong]
  | succ i' ih =>
      intro ps vs p hd hl hhead hlen
      cases ps with
      | nil => simp at hhead
      | cons x rest =>
          simp only [List.head?_cons, Option.some_inj] at hhead
          subst hhead
          cases rest with
          | nil => simp at hlen
          | cons y rest' =>
              have hpair : pairOk h x y := hl.1
              rcases nextOf_eq_some.mp hpair.1 with ⟨n, hn, hnext⟩
              cases vs with
              | nil => exact absurd hd (by simp [dataOk])
              | cons v vs' =>
                  have : walkStrong h x (i' + 1) = walkStrong h y i' := by
                    simp [walkStrong, hn, hnext]
                  rw [this, List.getElem?_cons_succ]
                  exact ih hd.2 hl.2 rfl (by simpa using Nat.lt_of_succ_lt_succ hlen)

theorem not_mem_dropLast_of_getLast? {ps : List Ptr} {a : Ptr}
    (hnd : ps.Nodup) (hlast : ps.getLast? = some a) : a ∉ ps.dropLast := by
  have hne : ps ≠ [] := by rintro rfl; simp at hlast
  have hsplit : ps.dropLast ++ [ps.getLast hne] = ps := List.dropLast_append_getLast hne
  have ha : ps.getLast hne = a := by
    have := List.getLast?_eq_getLast ps hne
    rw [this] at hlast
    exact Option.some_inj.mp hlast
  rw [← hsplit, ha] at hnd
  rcases List.nodup_append.mp hnd with ⟨_, _, hdisj⟩
  intro hmem
  exact hdisj hmem (by simp)

/-! ## Projection lemmas for heap updates -/

theorem nextOf_writeNode_self (h : Heap T) (p : Ptr) (n : Node T) (hp : p < h.length) :
    nextOf (writeNode h p n) p = some n.next := by
  simp [nextOf, readNode_writeNode_self h p n hp]

theorem prevOf_writeNode_self (h : Heap T) (p : Ptr) (n : Node T) (hp : p < h.length) :
    prevOf (writeNode h p n) p = some n.prev := by
  simp [prevOf, readNode_writeNode_self h p n hp]

theorem dataOf_writeNode_self (h : Heap T) (p : Ptr) (n : Node T) (hp : p < h.length) :
    dataOf (writeNode h p n) p = some n.data := by
  simp [dataOf, readNode_writeNode_self h p n hp]

theorem nextOf_writeNode_ne (h : Heap T) {p q : Ptr} (n : Node T) (hpq : p ≠ q) :
    nextOf (writeNode h p n) q = nextOf h q := by
  simp [nextOf, readNode_writeNode_ne h n hpq]

theorem prevOf_writeNode_ne (h : Heap T) {p q : Ptr} (n : Node T) (hpq : p ≠ q) :
    prevOf (writeNode h p n) q = prevOf h q := by
  simp [prevOf, readNode_writeNode_ne h n hpq]

theorem dataOf_writeNode_ne (h : Heap T) {p q : Ptr} (n : Node T) (hpq : p ≠ q) :
    dataOf (writeNode h p n) q = dataOf h q := by
  simp [dataOf, readNode_writeNode_ne h n hpq]

theorem nextOf_freeNode_ne (h : Heap T) {p q : Ptr} (hpq : p ≠ q) :
    nextOf (freeNode h p) q = nextOf h q := by
  simp [nextOf, readNode_freeNode_ne h hpq]

theorem prevOf_freeNode_ne (h : Heap T) {p q : Ptr} (hpq : p ≠ q) :
    prevOf (freeNode h p) q = prevOf h q := by
  simp [prevOf, readNode_freeNode_ne h hpq]

theorem dataOf_freeNode_ne (h : Heap T) {p q : Ptr} (hpq : p ≠ q) :
    dataOf (freeNode h p) q = dataOf h q := by
  simp [dataOf, readNode_freeNode_ne h hpq]

theorem nextOf_append_lt (h h' : Heap T) {p : Ptr} (hp : p < h.length) :
    nextOf (h ++ h') p = nextOf h p := by
  simp [nextOf, readNode_append_lt h h' hp]

theorem prevOf_append_lt (h h' : Heap T) {p : Ptr} (hp : p < h.length) :
    prevOf (h ++ h') p = prevOf h p := by
  simp [prevOf, readNode_append_lt h h' hp]

theorem dataOf_append_lt (h h' : Heap T) {p : Ptr} (hp : p < h.length) :
    dataOf (h ++ h') p = dataOf h p := by
  simp [dataOf, readNode_append_lt h h' hp]

/-! ## Well-formedness of the operations -/

/-- A freshly constructed list is a well-formed empty list. -/
theorem wfP_new : WfP (CdlList.new : CdlList T) [] [] := by
  refine ⟨rfl, rfl, rfl, rfl, List.nodup_nil, trivial, trivial, trivial⟩

/-- `push` on the (well-formed) empty list always succeeds and produces the
singleton list whose node is a weak self-reference in both directions. -/
theorem push_nil_wf {l : CdlList T} (hw : WfP l [] []) (t : T) (b : Bool) :
    ∃ l', l.push t b = some l' ∧ WfP l' [l.store.length] [t] := by
  obtain ⟨hsize, -, -, -, -, -, -, -⟩ := hw
  have hempty : l.is_empty = true := by simp [CdlList.is_empty, hsize]
  refine ⟨{ store := writeNode (l.store ++ [some (Node.mk none none t)]) l.store.length
              (Node.mk (some (LinkType.WeakLink l.store.length))
                (some (LinkType.WeakLink l.store.length)) t),
            head := some l.store.length, tail := some l.store.length,
            size := l.size + 1 }, ?_, ?_⟩
  · simp only [CdlList.push, alloc, hempty, if_true]
  · have hlen : l.store.length < (l.store ++ [some (Node.mk none none t)]).length := by
      simp
    have hr : readNode
        (writeNode (l.store ++ [some (Node.mk none none t)]) l.store.length
          (Node.mk (some (LinkType.WeakLink l.store.length))
            (some (LinkType.WeakLink l.store.length)) t)) l.store.length =
        some (Node.mk (some (LinkType.WeakLink l.store.length))
          (some (LinkType.WeakLink l.store.length)) t) :=
      readNode_writeNode_self _ _ _ hlen
    refine ⟨by simp [hsize], rfl, rfl, rfl, by simp, ?_, trivial, ?_⟩
    · exact ⟨by simp [dataOf, hr], trivial⟩
    · exact ⟨by simp [nextOf, hr], by simp [prevOf, hr]⟩

/-- Helper: a two-node layout is well-formed once the four link fields and
the handle fields are as required. -/
theorem wfP_two {l' : CdlList T} {a b : Ptr} {x y : T} {nA nB : Node T}
    (hsz : l'.size = 2) (hh : l'.head = some a) (ht : l'.tail = some b) (hab : a ≠ b)
    (hra : readNode l'.store a = some nA) (hrb : readNode l'.store b = some nB)
    (hda : nA.data = x) (hdb : nB.data = y)
    (hnx : nA.next = some (LinkType.StrongLink b))
    (hbp : nB.prev = some (LinkType.WeakLink a))
    (hbn : isWeakLink (some nB.next)) (hap : isWeakLink (some nA.prev)) :
    WfP l' [a, b] [x, y] := by
  refine ⟨by simp [hsz], rfl, by simpa using hh, by simpa using ht, by simp [hab], ?_, ?_, ?_⟩
  · exact ⟨by simp [dataOf, hra, hda], by simp [dataOf, hrb, hdb], trivial⟩
  · exact ⟨⟨by simp [nextOf, hra, hnx], by simp [prevOf, hrb, hbp]⟩, trivial⟩
  · constructor
    · show isWeakLink (nextOf l'.store ([b].getLast (List.cons_ne_nil b [])))
      simpa [nextOf, hrb] using hbn
    · show isWeakLink (prevOf l'.store a)
      simpa [prevOf, hra] using hap

/-- `push_front` on a well-formed non-empty list always succeeds; the fresh
node is prepended to the chain. -/
theorem push_front_cons_wf {l : CdlList T} {p : Ptr} {ps : List Ptr} {v : T} {vs : List T}
    (hw : WfP l (p :: ps) (v :: vs)) (t : T) :
    ∃ l', l.push t true = some l' ∧ WfP l' (l.store.length :: p :: ps) (t :: v :: vs) := by
  obtain ⟨hsize, hlen, hhead, htail, hnd, hdata, hlinks, hwrap⟩ := hw
  have hlen' : ps.length = vs.length := by simpa using hlen
  have hne : (p :: ps) ≠ [] := List.cons_ne_nil p ps
  have htail' : l.tail = some ((p :: ps).getLast hne) := by
    rw [htail, List.getLast?_eq_getLast _ hne]
  have hhead' : l.head = some p := by simpa using hhead
  have hemp : l.is_empty = false := by simp [CdlList.is_empty, hsize]
  have hvalid := dataOk_valid hdata
  have hltL : ∀ x ∈ (p :: ps), x < l.store.length := by
    intro x hx
    obtain ⟨n, hn⟩ := hvalid x hx
    exact lt_length_of_readNode_eq_some hn
  have hLmem : l.store.length ∉ (p :: ps) := fun hmem => absurd (hltL _ hmem) (lt_irrefl _)
  have hpL : p ≠ l.store.length := Nat.ne_of_lt (hltL p (List.mem_cons_self p ps))
  have htlmem : (p :: ps).getLast hne ∈ (p :: ps) := List.getLast_mem hne
  have htlL : (p :: ps).getLast hne ≠ l.store.length := Nat.ne_of_lt (hltL _ htlmem)
  obtain ⟨np, hnp⟩ := hvalid p (List.mem_cons_self p ps)
  have hnpdata : np.data = v := by
    rcases dataOf_eq_some.mp hdata.1 with ⟨n, hn, hd⟩
    rw [hnp] at hn
    cases hn
    exact hd
  -- the heap after allocation and the two unconditional writes
  have hread2 : readNode (writeNode (l.store ++ [some (Node.mk none none t)]) l.store.length
      (Node.mk (some (LinkType.StrongLink p))
        (some (LinkType.WeakLink ((p :: ps).getLast hne))) t)) p = some np := by
    rw [readNode_writeNode_ne _ _ (Ne.symm hpL),
      readNode_append_lt _ _ (hltL p (List.mem_cons_self p ps)), hnp]
  cases vs with
  | nil =>
      -- singleton list: ps = [], the old node gets weak self-links repaired
      have hps : ps = [] := List.length_eq_zero.mp (by simpa using hlen')
      subst hps
      have hs1 : (l.size == 1) = true := by simp [hsize]
      have htlp : (p :: ([] : List Ptr)).getLast hne = p := rfl
      rw [htlp] at hread2 htail' htlL htlmem
      have hlen1 : p < (writeNode (l.store ++ [some (Node.mk none none t)]) l.store.length
          (Node.mk (some (LinkType.StrongLink p)) (some (LinkType.WeakLink p)) t)).length := by
        simp only [writeNode, List.length_set, List.length_append, List.length_singleton]
        exact Nat.lt_succ_of_lt (hltL p (List.mem_cons_self p []))
      have hread3 : readNode (writeNode (writeNode (l.store ++ [some (Node.mk none none t)])
          l.store.length (Node.mk (some (LinkType.StrongLink p)) (some (LinkType.WeakLink p)) t))
          p { np with prev := some (LinkType.WeakLink l.store.length) }) p
          = some { np with prev := some (LinkType.WeakLink l.store.length) } :=
        readNode_writeNode_self _ _ _ hlen1
      refine ⟨CdlList.mk
          (writeNode
            (writeNode
              (writeNode (l.store ++ [some (Node.mk none none t)]) l.store.length
                (Node.mk (some (LinkType.StrongLink p)) (some (LinkType.WeakLink p)) t))
              p { np with prev := some (LinkType.WeakLink l.store.length) })
            p { np with prev := some (LinkType.WeakLink l.store.length),
                        next := some (LinkType.WeakLink l.store.length) })
          (some l.store.length) l.tail (l.size + 1), ?_, ?_⟩
      · simp only [CdlList.push, alloc, hemp, Bool.false_eq_true, if_false, hhead', htail',
          Option.bind_eq_bind, Option.some_bind, if_true, hread2, hs1, hread3,
          Option.pure_def]
      · have hreadL4 : readNode (writeNode
            (writeNode
              (writeNode (l.store ++ [some (Node.mk none none t)]) l.store.length
                (Node.mk (some (LinkType.StrongLink p)) (some (LinkType.WeakLink p)) t))
              p { np with prev := some (LinkType.WeakLink l.store.length) })
            p { np with prev := some (LinkType.WeakLink l.store.length),
                        next := some (LinkType.WeakLink l.store.length) }) l.store.length
            = some (Node.mk (some (LinkType.StrongLink p)) (some (LinkType.WeakLink p)) t) := by
          rw [readNode_writeNode_ne _ _ hpL, readNode_writeNode_ne _ _ hpL]
          exact readNode_writeNode_self _ _ _ (by simp)
        have hreadp4 : readNode (writeNode
            (writeNode
              (writeNode (l.store ++ [some (Node.mk none none t)]) l.store.length
                (Node.mk (some (LinkType.StrongLink p)) (some (LinkType.WeakLink p)) t))
              p { np with prev := some (LinkType.WeakLink l.store.length) })
            p (Node.mk (some (LinkType.WeakLink l.store.length))
                (some (LinkType.WeakLink l.store.length)) np.data)) p
            = some (Node.mk (some (LinkType.WeakLink l.store.length))
                (some (LinkType.WeakLink l.store.length)) np.data) := by
          refine readNode_writeNode_self _ _ _ ?_
          simp only [writeNode, List.length_set, List.length_append, List.length_singleton]
          exact Nat.lt_succ_of_lt (hltL p (List.mem_cons_self p []))
        exact wfP_two (by simp [hsize]) rfl htail' (Ne.symm hpL) hreadL4 hreadp4 rfl hnpdata
          rfl rfl trivial trivial
  | cons w vs' =>
      have hs1 : (l.size == 1) = false := by
        rw [hsize]
        simp
      cases ps with
      | nil => simp at hlen'
      | cons q ps' =>
          refine ⟨CdlList.mk
              (writeNode
                (writeNode (l.store ++ [some (Node.mk none none t)]) l.store.length
                  (Node.mk (some (LinkType.StrongLink p))
                    (some (LinkType.WeakLink ((p :: q :: ps').getLast hne))) t))
                p { np with prev := some (LinkType.WeakLink l.store.length) })
              (some l.store.length) l.tail (l.size + 1), ?_, ?_⟩
          · simp only [CdlList.push, alloc, hemp, Bool.false_eq_true, if_false, hhead', htail',
              Option.bind_eq_bind, Option.some_bind, if_true, hread2, hs1, if_false,
              Option.pure_def]
          · -- well-formedness of the extended chain
            have hqmem : q ∈ (p :: q :: ps') := by simp
            have hpq : p ∉ (q :: ps') := (List.nodup_cons.mp hnd).1
            have hreadL : readNode (writeNode
                (writeNode (l.store ++ [some (Node.mk none none t)]) l.store.length
                  (Node.mk (some (LinkType.StrongLink p))
                    (some (LinkType.WeakLink ((p :: q :: ps').getLast hne))) t))
                p { np with prev := some (LinkType.WeakLink l.store.length) }) l.store.length
                = some (Node.mk (some (LinkType.StrongLink p))
                    (some (LinkType.WeakLink ((p :: q :: ps').getLast hne))) t) := by
              rw [readNode_writeNode_ne _ _ hpL]
              exact readNode_writeNode_self _ _ _ (by simp)
            have hreadp : readNode (writeNode
                (writeNode (l.store ++ [some (Node.mk none none t)]) l.store.length
                  (Node.mk (some (LinkType.StrongLink p))
                    (some (LinkType.WeakLink ((p :: q :: ps').getLast hne))) t))
                p { np with prev := some (LinkType.WeakLink l.store.length) }) p
                = some { np with prev := some (LinkType.WeakLink l.store.length) } := by
              refine readNode_writeNode_self _ _ _ ?_
              simp only [writeNode, List.length_set, List.length_append, List.length_singleton]
              exact Nat.lt_succ_of_lt (hltL p (List.mem_cons_self p _))
            have hother : ∀ x ∈ (p :: q :: ps'), x ≠ p →
                readNode (writeNode
                  (writeNode (l.store ++ [some (Node.mk none none t)]) l.store.length
                    (Node.mk (some (LinkType.StrongLink p))
                      (some (LinkType.WeakLink ((p :: q :: ps').getLast hne))) t))
                  p { np with prev := some (LinkType.WeakLink l.store.length) }) x
                = readNode l.store x := by
              intro x hx hxp
              rw [readNode_writeNode_ne _ _ (Ne.symm hxp),
                readNode_writeNode_ne _ _ (Ne.symm (Nat.ne_of_lt (hltL x hx))),
                readNode_append_lt _ _ (hltL x hx)]
            have htlmem2 : (p :: q :: ps').getLast hne ∈ (q :: ps') :=
              List.getLast_mem (List.cons_ne_nil q ps')
            have htlp' : (p :: q :: ps').getLast hne ≠ p := fun h0 => hpq (h0 ▸ htlmem2)
            refine ⟨by simp [hsize], by simpa using hlen, rfl, ?_, ?_, ?_, ?_, ?_⟩
            · simp only [htail, List.getLast?_cons_cons]
            · exact List.nodup_cons.mpr ⟨hLmem, hnd⟩
            · -- dataOk
              refine ⟨by simp only [dataOf, hreadL, Option.map_some'], ?_⟩
              refine dataOk_congr (fun x hx => ?_) hdata
              by_cases hxp : x = p
              · subst hxp
                simp only [dataOf, hreadp, hnp, Option.map_some']
              · simp only [dataOf, hother x hx hxp]
            · -- linksOk
              refine ⟨⟨by simp only [nextOf, hreadL, Option.map_some'],
                by simp only [prevOf, hreadp, Option.map_some']⟩, ?_⟩
              refine linksOk_congr (fun x hx => ?_) (fun x hx => ?_) hlinks
              · by_cases hxp : x = p
                · subst hxp
                  simp only [nextOf, hreadp, hnp, Option.map_some']
                · have hx' : x ∈ (p :: q :: ps') := List.mem_of_mem_dropLast hx
                  simp only [nextOf, hother x hx' hxp]
              · have hx' : x ∈ (p :: q :: ps') := List.mem_of_mem_tail hx
                have hxp : x ≠ p := fun hxe => hpq (hxe ▸ hx)
                simp only [prevOf, hother x hx' hxp]
            · -- wrapOk
              refine ⟨?_, ?_⟩
              · show isWeakLink (nextOf (writeNode
                    (writeNode (l.store ++ [some (Node.mk none none t)]) l.store.length
                      (Node.mk (some (LinkType.StrongLink p))
                        (some (LinkType.WeakLink ((p :: q :: ps').getLast hne))) t))
                    p { np with prev := some (LinkType.WeakLink l.store.length) })
                    ((p :: q :: ps').getLast hne))
                simp only [nextOf]
                rw [hother _ htlmem htlp']
                exact hwrap.1
              · show isWeakLink (prevOf (writeNode
                    (writeNode (l.store ++ [some (Node.mk none none t)]) l.store.length
                      (Node.mk (some (LinkType.StrongLink p))
                        (some (LinkType.WeakLink ((p :: q :: ps').getLast hne))) t))
                    p { np with prev := some (LinkType.WeakLink l.store.length) })
                    l.store.length)
                simp only [prevOf]
                rw [hreadL]
                exact trivial

/-- `push_back` on a well-formed non-empty list always succeeds; the fresh
node is appended to the chain. -/
theorem push_back_cons_wf {l : CdlList T} {p : Ptr} {ps : List Ptr} {v : T} {vs : List T}
    (hw : WfP l (p :: ps) (v :: vs)) (t : T) :
    ∃ l', l.push t false = some l' ∧
      WfP l' ((p :: ps) ++ [l.store.length]) ((v :: vs) ++ [t]) := by
  obtain ⟨hsize, hlen, hhead, htail, hnd, hdata, hlinks, hwrap⟩ := hw
  have hlen' : ps.length = vs.length := by simpa using hlen
  have hne : (p :: ps) ≠ [] := List.cons_ne_nil p ps
  have htail' : l.tail = some ((p :: ps).getLast hne) := by
    rw [htail, List.getLast?_eq_getLast _ hne]
  have hhead' : l.head = some p := by simpa using hhead
  have hemp : l.is_empty = false := by simp [CdlList.is_empty, hsize]
  have hvalid := dataOk_valid hdata
  have hltL : ∀ x ∈ (p :: ps), x < l.store.length := by
    intro x hx
    obtain ⟨n, hn⟩ := hvalid x hx
    exact lt_length_of_readNode_eq_some hn
  have hLmem : l.store.length ∉ (p :: ps) := fun hmem => absurd (hltL _ hmem) (lt_irrefl _)
  have hpL : p ≠ l.store.length := Nat.ne_of_lt (hltL p (List.mem_cons_self p ps))
  have htlmem : (p :: ps).getLast hne ∈ (p :: ps) := List.getLast_mem hne
  have htlL : (p :: ps).getLast hne ≠ l.store.length := Nat.ne_of_lt (hltL _ htlmem)
  obtain ⟨ntl, hntl⟩ := hvalid _ htlmem
  -- read of the old tail node after allocation and the fresh-node write
  have hread2 : readNode (writeNode (l.store ++ [some (Node.mk none none t)]) l.store.length
      (Node.mk (some (LinkType.WeakLink p))
        (some (LinkType.WeakLink ((p :: ps).getLast hne))) t)) ((p :: ps).getLast hne)
      = some ntl := by
    rw [readNode_writeNode_ne _ _ (Ne.symm htlL),
      readNode_append_lt _ _ (hltL _ htlmem), hntl]
  cases vs with
  | nil =>
      -- singleton list: ps = [], the old node gets prev repaired to the new node
      have hps : ps = [] := List.length_eq_zero.mp (by simpa using hlen')
      subst hps
      have hs1 : (l.size == 1) = true := by simp [hsize]
      have htlp : (p :: ([] : List Ptr)).getLast hne = p := rfl
      rw [htlp] at hread2 htail' htlL htlmem hntl
      have hnpv : ntl.data = v := by
        rcases dataOf_eq_some.mp hdata.1 with ⟨n, hn, hd⟩
        rw [hntl] at hn
        cases hn
        exact hd
      have hread3 : readNode (writeNode (writeNode (l.store ++ [some (Node.mk none none t)])
          l.store.length (Node.mk (some (LinkType.WeakLink p)) (some (LinkType.WeakLink p)) t))
          p { ntl with next := some (LinkType.StrongLink l.store.length) }) p
          = some { ntl with next := some (LinkType.StrongLink l.store.length) } := by
        refine readNode_writeNode_self _ _ _ ?_
        simp only [writeNode, List.length_set, List.length_append, List.length_singleton]
        exact Nat.lt_succ_of_lt (hltL p (List.mem_cons_self p []))
      refine ⟨CdlList.mk
          (writeNode
            (writeNode
              (writeNode (l.store ++ [some (Node.mk none none t)]) l.store.length
                (Node.mk (some (LinkType.WeakLink p)) (some (LinkType.WeakLink p)) t))
              p { ntl with next := some (LinkType.StrongLink l.store.length) })
            p (Node.mk (some (LinkType.StrongLink l.store.length))
                (some (LinkType.WeakLink l.store.length)) ntl.data))
          l.head (some l.store.length) (l.size + 1), ?_, ?_⟩
      · simp only [CdlList.push, alloc, hemp, Bool.false_eq_true, if_false, hhead', htail',
          Option.bind_eq_bind, Option.some_bind, if_true, hread2, hs1, hread3,
          Option.pure_def]
      · have hreadp4 : readNode (writeNode
            (writeNode
              (writeNode (l.store ++ [some (Node.mk none none t)]) l.store.length
                (Node.mk (some (LinkType.WeakLink p)) (some (LinkType.WeakLink p)) t))
              p { ntl with next := some (LinkType.StrongLink l.store.length) })
            p (Node.mk (some (LinkType.StrongLink l.store.length))
                (some (LinkType.WeakLink l.store.length)) ntl.data)) p
            = some (Node.mk (some (LinkType.StrongLink l.store.length))
                (some (LinkType.WeakLink l.store.length)) ntl.data) := by
          refine readNode_writeNode_self _ _ _ ?_
          simp only [writeNode, List.length_set, List.length_append, List.length_singleton]
          exact Nat.lt_succ_of_lt (hltL p (List.mem_cons_self p []))
        have hreadL4 : readNode (writeNode
            (writeNode
              (writeNode (l.store ++ [some (Node.mk none none t)]) l.store.length
                (Node.mk (some (LinkType.WeakLink p)) (some (LinkType.WeakLink p)) t))
              p { ntl with next := some (LinkType.StrongLink l.store.length) })
            p (Node.mk (some (LinkType.StrongLink l.store.length))
                (some (LinkType.WeakLink l.store.length)) ntl.data)) l.store.length
            = some (Node.mk (some (LinkType.WeakLink p)) (some (LinkType.WeakLink p)) t) := by
          rw [readNode_writeNode_ne _ _ hpL, readNode_writeNode_ne _ _ hpL]
          exact readNode_writeNode_self _ _ _ (by simp)
        exact wfP_two (by simp [hsize]) hhead' rfl hpL hreadp4 hreadL4 hnpv rfl
          rfl rfl trivial trivial
  | cons w vs' =>
      have hs1 : (l.size == 1) = false := by
        rw [hsize]
        simp
      cases ps with
      | nil => simp at hlen'
      | cons q ps' =>
          have hpq : p ∉ (q :: ps') := (List.nodup_cons.mp hnd).1
          have htlmem2 : (p :: q :: ps').getLast hne ∈ (q :: ps') :=
            List.getLast_mem (List.cons_ne_nil q ps')
          have htlp' : (p :: q :: ps').getLast hne ≠ p := fun h0 => hpq (h0 ▸ htlmem2)
          have hread3 : readNode (writeNode
              (writeNode (l.store ++ [some (Node.mk none none t)]) l.store.length
                (Node.mk (some (LinkType.WeakLink p))
                  (some (LinkType.WeakLink ((p :: q :: ps').getLast hne))) t))
              ((p :: q :: ps').getLast hne)
              { ntl with next := some (LinkType.StrongLink l.store.length) })
              ((p :: q :: ps').getLast hne)
              = some { ntl with next := some (LinkType.StrongLink l.store.length) } := by
            refine readNode_writeNode_self _ _ _ ?_
            simp only [writeNode, List.length_set, List.length_append, List.length_singleton]
            exact Nat.lt_succ_of_lt (hltL _ htlmem)
          have hreadL : readNode (writeNode
              (writeNode (l.store ++ [some (Node.mk none none t)]) l.store.length
                (Node.mk (some (LinkType.WeakLink p))
                  (some (LinkType.WeakLink ((p :: q :: ps').getLast hne))) t))
              ((p :: q :: ps').getLast hne)
              { ntl with next := some (LinkType.StrongLink l.store.length) }) l.store.length
              = some (Node.mk (some (LinkType.WeakLink p))
                  (some (LinkType.WeakLink ((p :: q :: ps').getLast hne))) t) := by
            rw [readNode_writeNode_ne _ _ htlL]
            exact readNode_writeNode_self _ _ _ (by simp)
          have hother : ∀ x ∈ (p :: q :: ps'), x ≠ (p :: q :: ps').getLast hne →
              readNode (writeNode
                (writeNode (l.store ++ [some (Node.mk none none t)]) l.store.length
                  (Node.mk (some (LinkType.WeakLink p))
                    (some (LinkType.WeakLink ((p :: q :: ps').getLast hne))) t))
                ((p :: q :: ps').getLast hne)
                { ntl with next := some (LinkType.StrongLink l.store.length) }) x
              = readNode l.store x := by
            intro x hx hxtl
            rw [readNode_writeNode_ne _ _ (Ne.symm hxtl),
              readNode_writeNode_ne _ _ (Ne.symm (Nat.ne_of_lt (hltL x hx))),
              readNode_append_lt _ _ (hltL x hx)]
          refine ⟨CdlList.mk
              (writeNode
                (writeNode (l.store ++ [some (Node.mk none none t)]) l.store.length
                  (Node.mk (some (LinkType.WeakLink p))
                    (some (LinkType.WeakLink ((p :: q :: ps').getLast hne))) t))
                ((p :: q :: ps').getLast hne)
                { ntl with next := some (LinkType.StrongLink l.store.length) })
              l.head (some l.store.length) (l.size + 1), ?_, ?_⟩
          · simp only [CdlList.push, alloc, hemp, Bool.false_eq_true, if_false, hhead', htail',
              Option.bind_eq_bind, Option.some_bind, if_true, hread2, hs1, if_false,
              Option.pure_def]
          · have hdisj : List.Disjoint (p :: q :: ps') [l.store.length] :=
              List.disjoint_singleton.mpr hLmem
            have hntdl : (p :: q :: ps').getLast hne ∉ (p :: q :: ps').dropLast :=
              not_mem_dropLast_of_getLast? hnd (List.getLast?_eq_getLast _ hne)
            refine ⟨by simp [hsize], by simpa using hlen, ?_, ?_, ?_, ?_, ?_, ?_⟩
            · simpa using hhead'
            · simp only [List.getLast?_concat]
            · exact List.Nodup.append hnd (List.nodup_singleton _) hdisj
            · -- dataOk
              rw [dataOk_append hlen]
              refine ⟨dataOk_congr (fun x hx => ?_) hdata, ?_⟩
              · by_cases hxtl : x = (p :: q :: ps').getLast hne
                · subst hxtl
                  simp only [dataOf, hread3, hntl, Option.map_some']
                · simp only [dataOf, hother x hx hxtl]
              · exact ⟨by simp only [dataOf, hreadL, Option.map_some'], trivial⟩
            · -- linksOk
              rw [linksOk_append (List.getLast?_eq_getLast _ hne)
                (show ([l.store.length] : List Ptr).head? = some l.store.length from rfl)]
              refine ⟨?_, ⟨?_, ?_⟩, trivial⟩
              · refine linksOk_congr (fun x hx => ?_) (fun x hx => ?_) hlinks
                · have hx' : x ∈ (p :: q :: ps') := List.mem_of_mem_dropLast hx
                  have hxtl : x ≠ (p :: q :: ps').getLast hne := fun h0 => hntdl (h0 ▸ hx)
                  simp only [nextOf, hother x hx' hxtl]
                · have hx' : x ∈ (p :: q :: ps') := List.mem_of_mem_tail hx
                  by_cases hxtl : x = (p :: q :: ps').getLast hne
                  · subst hxtl
                    simp only [prevOf, hread3, hntl, Option.map_some']
                  · simp only [prevOf, hother x hx' hxtl]
              · simp only [nextOf, hread3, Option.map_some']
              · simp only [prevOf, hreadL, Option.map_some']
            · -- wrapOk
              have hgl : (q :: (ps' ++ [l.store.length])).getLast
                  (List.cons_ne_nil q (ps' ++ [l.store.length])) = l.store.length := by
                have h1 : (q :: (ps' ++ [l.store.length])).getLast? = some l.store.length := by
                  rw [show q :: (ps' ++ [l.store.length]) = (q :: ps') ++ [l.store.length]
                    from rfl, List.getLast?_concat]
                rw [List.getLast?_eq_getLast _ (List.cons_ne_nil _ _)] at h1
                exact Option.some_inj.mp h1
              refine ⟨?_, ?_⟩
              · show isWeakLink (nextOf (writeNode
                    (writeNode (l.store ++ [some (Node.mk none none t)]) l.store.length
                      (Node.mk (some (LinkType.WeakLink p))
                        (some (LinkType.WeakLink ((p :: q :: ps').getLast hne))) t))
                    ((p :: q :: ps').getLast hne)
                    { ntl with next := some (LinkType.StrongLink l.store.length) })
                    ((q :: (ps' ++ [l.store.length])).getLast
                      (List.cons_ne_nil q (ps' ++ [l.store.length]))))
                rw [hgl]
                simp only [nextOf]
                rw [hreadL]
                exact trivial
              · show isWeakLink (prevOf (writeNode
                    (writeNode (l.store ++ [some (Node.mk none none t)]) l.store.length
                      (Node.mk (some (LinkType.WeakLink p))
                        (some (LinkType.WeakLink ((p :: q :: ps').getLast hne))) t))
                    ((p :: q :: ps').getLast hne)
                    { ntl with next := some (LinkType.StrongLink l.store.length) }) p)
                simp only [prevOf]
                rw [hother p (List.mem_cons_self p _) (Ne.symm htlp')]
                exact hwrap.2

/-- `pop` (either direction) on a well-formed singleton list succeeds,
returns the single value and leaves a well-formed empty list. -/
theorem pop_one_wf {l : CdlList T} {p : Ptr} {v : T} (hw : WfP l [p] [v]) (b : Bool) :
    ∃ l', l.pop b = some (some v, l') ∧ WfP l' [] [] := by
  obtain ⟨hsize, hlen, hhead, htail, hnd, hdata, hlinks, hwrap⟩ := hw
  have hhead' : l.head = some p := by simpa using hhead
  have htail' : l.tail = some p := by simpa using htail
  have hemp : l.is_empty = false := by simp [CdlList.is_empty, hsize]
  have hs0 : (l.size - 1 == 0) = true := by simp [hsize]
  rcases dataOf_eq_some.mp hdata.1 with ⟨np, hnp, hd⟩
  refine ⟨CdlList.mk (freeNode l.store p) none none (l.size - 1), ?_, ?_⟩
  · simp only [CdlList.pop, hemp, Bool.false_eq_true, if_false, hs0, if_true, hhead', htail',
      Option.bind_eq_bind, Option.some_bind, hnp, hd]
  · exact ⟨by simp [hsize], rfl, rfl, rfl, List.nodup_nil, trivial, trivial, trivial⟩

/-- `pop_front` on a well-formed list of size ≥ 2 succeeds, returns the head
value, and leaves the rest of the chain well-formed. -/
theorem pop_front_cons_wf {l : CdlList T} {p q : Ptr} {ps : List Ptr} {v w : T} {vs : List T}
    (hw : WfP l (p :: q :: ps) (v :: w :: vs)) :
    ∃ l', l.pop true = some (some v, l') ∧ WfP l' (q :: ps) (w :: vs) := by
  obtain ⟨hsize, hlen, hhead, htail, hnd, hdata, hlinks, hwrap⟩ := hw
  have hne : (p :: q :: ps) ≠ [] := List.cons_ne_nil _ _
  have hhead' : l.head = some p := by simpa using hhead
  have htail' : l.tail = some ((p :: q :: ps).getLast hne) := by
    rw [htail, List.getLast?_eq_getLast _ hne]
  have hemp : l.is_empty = false := by simp [CdlList.is_empty, hsize]
  have hs0 : (l.size - 1 == 0) = false := by rw [hsize]; simp
  have hvalid := dataOk_valid hdata
  have hpq : p ∉ (q :: ps) := (List.nodup_cons.mp hnd).1
  have htlmem2 : (p :: q :: ps).getLast hne ∈ (q :: ps) :=
    List.getLast_mem (List.cons_ne_nil q ps)
  have htlp' : (p :: q :: ps).getLast hne ≠ p := fun h0 => hpq (h0 ▸ htlmem2)
  rcases dataOf_eq_some.mp hdata.1 with ⟨np, hnp, hd⟩
  have hnpnext : np.next = some (LinkType.StrongLink q) := by
    rcases nextOf_eq_some.mp hlinks.1.1 with ⟨n, hn, hx⟩
    rw [hnp] at hn
    cases hn
    exact hx
  obtain ⟨nq, hnq⟩ := hvalid q (by simp)
  have hqp : q ≠ p := fun h0 => hpq (h0 ▸ List.mem_cons_self q ps)
  have hreadq1 : readNode (freeNode l.store p) q = some nq := by
    rw [readNode_freeNode_ne _ (Ne.symm hqp), hnq]
  cases ps with
  | nil =>
      -- size exactly 2: the remaining node becomes a weak self-loop
      have hvs : vs = [] := List.length_eq_zero.mp (by simpa using hlen.symm)
      subst hvs
      have htlq : (p :: q :: ([] : List Ptr)).getLast hne = q := rfl
      rw [htlq] at htail' htlp' htlmem2
      have hread2 : readNode (writeNode (freeNode l.store p) q
          { nq with prev := some (LinkType.WeakLink q) }) q
          = some { nq with prev := some (LinkType.WeakLink q) } := by
        refine readNode_writeNode_self _ _ _ ?_
        simp only [freeNode, List.length_set]
        exact lt_length_of_readNode_eq_some hnq
      refine ⟨CdlList.mk
          (writeNode
            (writeNode (freeNode l.store p) q { nq with prev := some (LinkType.WeakLink q) })
            q (Node.mk (some (LinkType.WeakLink q)) (some (LinkType.WeakLink q)) nq.data))
          (some q) l.tail (l.size - 1), ?_, ?_⟩
      · simp only [CdlList.pop, hemp, Bool.false_eq_true, if_false, hs0, if_true, hhead',
          htail', Option.bind_eq_bind, Option.some_bind, hnp, hnpnext, hreadq1, hread2, hd]
      · have hread3 : readNode (writeNode
            (writeNode (freeNode l.store p) q { nq with prev := some (LinkType.WeakLink q) })
            q (Node.mk (some (LinkType.WeakLink q)) (some (LinkType.WeakLink q)) nq.data)) q
            = some (Node.mk (some (LinkType.WeakLink q)) (some (LinkType.WeakLink q)) nq.data) := by
          refine readNode_writeNode_self _ _ _ ?_
          simp only [writeNode, freeNode, List.length_set]
          exact lt_length_of_readNode_eq_some hnq
        have hnqw : nq.data = w := by
          rcases dataOf_eq_some.mp hdata.2.1 with ⟨n, hn, hx⟩
          rw [hnq] at hn
          cases hn
          exact hx
        refine ⟨by simp [hsize], rfl, rfl, htail', by simp, ?_, trivial, ?_⟩
        · exact ⟨by simp only [dataOf, hread3, Option.map_some', Option.some_inj]; exact hnqw,
            trivial⟩
        · exact ⟨by simp [nextOf, hread3], by simp [prevOf, hread3]⟩
  | cons r ps'' =>
      have hqtl : q ≠ (p :: q :: r :: ps'').getLast hne := by
        intro h0
        have := List.getLast_mem (List.cons_ne_nil r ps'')
        have hq2 : (p :: q :: r :: ps'').getLast hne ∈ (r :: ps'') := this
        exact (List.nodup_cons.mp (List.nodup_cons.mp hnd).2).1 (h0 ▸ hq2)
      obtain ⟨ntl, hntl⟩ := hvalid _ (List.mem_cons_of_mem p htlmem2)
      have hreadtl2 : readNode (writeNode (freeNode l.store p) q
          { nq with prev := some (LinkType.WeakLink ((p :: q :: r :: ps'').getLast hne)) })
          ((p :: q :: r :: ps'').getLast hne) = some ntl := by
        rw [readNode_writeNode_ne _ _ hqtl, readNode_freeNode_ne _ (Ne.symm htlp'), hntl]
      have hread3tl : readNode (writeNode
          (writeNode (freeNode l.store p) q
            { nq with prev := some (LinkType.WeakLink ((p :: q :: r :: ps'').getLast hne)) })
          ((p :: q :: r :: ps'').getLast hne)
          { ntl with next := some (LinkType.WeakLink q) })
          ((p :: q :: r :: ps'').getLast hne)
          = some { ntl with next := some (LinkType.WeakLink q) } := by
        refine readNode_writeNode_self _ _ _ ?_
        simp only [writeNode, freeNode, List.length_set]
        exact lt_length_of_readNode_eq_some hntl
      have hread3q : readNode (writeNode
          (writeNode (freeNode l.store p) q
            { nq with prev := some (LinkType.WeakLink ((p :: q :: r :: ps'').getLast hne)) })
          ((p :: q :: r :: ps'').getLast hne)
          { ntl with next := some (LinkType.WeakLink q) }) q
          = some { nq with prev := some (LinkType.WeakLink ((p :: q :: r :: ps'').getLast hne)) } := by
        rw [readNode_writeNode_ne _ _ (Ne.symm hqtl)]
        refine readNode_writeNode_self _ _ _ ?_
        simp only [freeNode, List.length_set]
        exact lt_length_of_readNode_eq_some hnq
      have hother : ∀ x ∈ (q :: r :: ps''), x ≠ q → x ≠ (p :: q :: r :: ps'').getLast hne →
          readNode (writeNode
            (writeNode (freeNode l.store p) q
              { nq with prev := some (LinkType.WeakLink ((p :: q :: r :: ps'').getLast hne)) })
            ((p :: q :: r :: ps'').getLast hne)
            { ntl with next := some (LinkType.WeakLink q) }) x = readNode l.store x := by
        intro x hx hxq hxtl
        have hxp : x ≠ p := fun h0 => hpq (h0 ▸ hx)
        rw [readNode_writeNode_ne _ _ (Ne.symm hxtl), readNode_writeNode_ne _ _ (Ne.symm hxq),
          readNode_freeNode_ne _ (Ne.symm hxp)]
      refine ⟨CdlList.mk
          (writeNode
            (writeNode (freeNode l.store p) q
              { nq with prev := some (LinkType.WeakLink ((p :: q :: r :: ps'').getLast hne)) })
            ((p :: q :: r :: ps'').getLast hne)
            { ntl with next := some (LinkType.WeakLink q) })
          (some q) l.tail (l.size - 1), ?_, ?_⟩
      · simp only [CdlList.pop, hemp, Bool.false_eq_true, if_false, hs0, if_true, hhead',
          htail', Option.bind_eq_bind, Option.some_bind, hnp, hnpnext, hreadq1, hreadtl2, hd]
      · have hnd2 : (q :: r :: ps'').Nodup := (List.nodup_cons.mp hnd).2
        have hgl2 : (q :: r :: ps'').getLast? = some ((p :: q :: r :: ps'').getLast hne) :=
          List.getLast?_eq_getLast _ (List.cons_ne_nil _ _)
        have hntdl2 : (p :: q :: r :: ps'').getLast hne ∉ (q :: r :: ps'').dropLast :=
          not_mem_dropLast_of_getLast? hnd2 hgl2
        have hqnr : q ∉ (r :: ps'') := (List.nodup_cons.mp hnd2).1
        refine ⟨by simp [hsize], by simpa using hlen, rfl, ?_, hnd2, ?_, ?_, ?_⟩
        · simp only [htail, List.getLast?_cons_cons]
        · -- dataOk
          refine dataOk_congr (fun x hx => ?_) hdata.2
          by_cases hxq : x = q
          · subst hxq
            simp only [dataOf, hread3q, hnq, Option.map_some']
          · by_cases hxtl : x = (p :: q :: r :: ps'').getLast hne
            · subst hxtl
              simp only [dataOf, hread3tl, hntl, Option.map_some']
            · simp only [dataOf, hother x hx hxq hxtl]
        · -- linksOk
          refine linksOk_congr (fun x hx => ?_) (fun x hx => ?_) hlinks.2
          · have hx' : x ∈ (q :: r :: ps'') := List.mem_of_mem_dropLast hx
            have hxtl : x ≠ (p :: q :: r :: ps'').getLast hne := fun h0 => hntdl2 (h0 ▸ hx)
            by_cases hxq : x = q
            · subst hxq
              simp only [nextOf, hread3q, hnq, Option.map_some']
            · simp only [nextOf, hother x hx' hxq hxtl]
          · have hx' : x ∈ (q :: r :: ps'') := List.mem_of_mem_tail hx
            have hxq : x ≠ q := fun h0 => hqnr (h0 ▸ hx)
            by_cases hxtl : x = (p :: q :: r :: ps'').getLast hne
            · subst hxtl
              simp only [prevOf, hread3tl, hntl, Option.map_some']
            · simp only [prevOf, hother x hx' hxq hxtl]
        · -- wrapOk
          refine ⟨?_, ?_⟩
          · show isWeakLink (nextOf (writeNode
                (writeNode (freeNode l.store p) q
                  { nq with prev := some (LinkType.WeakLink ((p :: q :: r :: ps'').getLast hne)) })
                ((p :: q :: r :: ps'').getLast hne)
                { ntl with next := some (LinkType.WeakLink q) })
                ((p :: q :: r :: ps'').getLast hne))
            simp only [nextOf, hread3tl, Option.map_some']
            exact trivial
          · show isWeakLink (prevOf (writeNode
                (writeNode (freeNode l.store p) q
                  { nq with prev := some (LinkType.WeakLink ((p :: q :: r :: ps'').getLast hne)) })
                ((p :: q :: r :: ps'').getLast hne)
                { ntl with next := some (LinkType.WeakLink q) }) q)
            simp only [prevOf, hread3q, Option.map_some']
            exact trivial

/-- `pop_back` on a well-formed list of size ≥ 2 succeeds, returns the tail
value, and leaves the rest of the chain well-formed. -/
theorem pop_back_snoc_wf {l : CdlList T} {a : Ptr} {qs : List Ptr} {tp : Ptr}
    {ws : List T} {w : T}
    (hw : WfP l ((a :: qs) ++ [tp]) (ws ++ [w])) :
    ∃ l', l.pop false = some (some w, l') ∧ WfP l' (a :: qs) ws := by
  obtain ⟨hsize, hlen, hhead, htail, hnd, hdata, hlinks, hwrap⟩ := hw
  have hlenqs : (a :: qs).length = ws.length := by simpa using hlen
  have hhead' : l.head = some a := by simpa using hhead
  have htail' : l.tail = some tp := by rw [htail, List.getLast?_concat]
  have hemp : l.is_empty = false := by
    simp only [CdlList.is_empty, hsize]
    simp
  have hs0 : (l.size - 1 == 0) = false := by
    rw [hsize]
    have : (ws ++ [w]).length = ws.length + 1 := by simp
    rw [this, ← hlenqs]
    simp
  obtain ⟨hndqs, -, hdisj⟩ := List.nodup_append.mp hnd
  have htpqs : tp ∉ (a :: qs) := fun hmem => hdisj hmem (by simp)
  have hdec := (dataOk_append hlenqs).mp hdata
  have hldec := (linksOk_append (List.getLast?_eq_getLast _ (List.cons_ne_nil a qs))
    (show ([tp] : List Ptr).head? = some tp from rfl)).mp hlinks
  have hprmem : (a :: qs).getLast (List.cons_ne_nil a qs) ∈ (a :: qs) :=
    List.getLast_mem _
  have hprtp : (a :: qs).getLast (List.cons_ne_nil a qs) ≠ tp :=
    fun h0 => htpqs (h0 ▸ hprmem)
  have hvalid := dataOk_valid hdec.1
  obtain ⟨npr, hnpr⟩ := hvalid _ hprmem
  obtain ⟨na, hna⟩ := hvalid a (List.mem_cons_self a qs)
  rcases dataOf_eq_some.mp hdec.2.1 with ⟨ntp, hntp, hntpd⟩
  have hntpprev : ntp.prev
      = some (LinkType.WeakLink ((a :: qs).getLast (List.cons_ne_nil a qs))) := by
    rcases prevOf_eq_some.mp hldec.2.1.2 with ⟨n, hn, hx⟩
    rw [hntp] at hn
    cases hn
    exact hx
  have hatp : a ≠ tp := fun h0 => htpqs (h0 ▸ List.mem_cons_self a qs)
  have hreadtp1 : readNode (writeNode l.store ((a :: qs).getLast (List.cons_ne_nil a qs))
      { npr with next := some (LinkType.WeakLink a) }) tp = some ntp := by
    rw [readNode_writeNode_ne _ _ hprtp, hntp]
  cases qs with
  | nil =>
      -- size exactly 2: the remaining node becomes a weak self-loop
      obtain ⟨w0, hws⟩ : ∃ w0, ws = [w0] := by
        cases ws with
        | nil => simp at hlenqs
        | cons w0 ws' =>
            cases ws' with
            | nil => exact ⟨w0, rfl⟩
            | cons _ _ => simp at hlenqs
      subst hws
      have hpra : ([a] : List Ptr).getLast (List.cons_ne_nil a []) = a := rfl
      rw [hpra] at hreadtp1 hprtp hprmem hnpr
      rw [show npr = na from by rw [hna] at hnpr; exact (Option.some_inj.mp hnpr).symm]
        at hreadtp1
      have hnaw : na.data = w0 := by
        rcases dataOf_eq_some.mp hdec.1.1 with ⟨n, hn, hx⟩
        rw [hna] at hn
        cases hn
        exact hx
      have hreada2 : readNode (freeNode (writeNode l.store a
          { na with next := some (LinkType.WeakLink a) }) tp) a
          = some { na with next := some (LinkType.WeakLink a) } := by
        rw [readNode_freeNode_ne _ (Ne.symm hatp)]
        refine readNode_writeNode_self _ _ _ ?_
        exact lt_length_of_readNode_eq_some hna
      have hreada3 : readNode (writeNode (freeNode (writeNode l.store a
          { na with next := some (LinkType.WeakLink a) }) tp) a
          (Node.mk (some (LinkType.WeakLink a)) (some (LinkType.WeakLink a)) na.data)) a
          = some (Node.mk (some (LinkType.WeakLink a)) (some (LinkType.WeakLink a)) na.data) := by
        refine readNode_writeNode_self _ _ _ ?_
        simp only [freeNode, writeNode, List.length_set]
        exact lt_length_of_readNode_eq_some hna
      refine ⟨CdlList.mk
          (writeNode (freeNode (writeNode l.store a
            { na with next := some (LinkType.WeakLink a) }) tp) a
            (Node.mk (some (LinkType.WeakLink a)) (some (LinkType.WeakLink a)) na.data))
          l.head (some a) (l.size - 1), ?_, ?_⟩
      · simp only [CdlList.pop, hemp, Bool.false_eq_true, if_false, hs0, if_true, hhead',
          htail', Option.bind_eq_bind, Option.some_bind, hntp, hntpprev, hpra, hna,
          hreadtp1, hreada2, hreada3, Option.pure_def, hntpd]
      · refine ⟨by simp [hsize, ← hlenqs], rfl, by simpa using hhead', rfl,
          by simp, ?_, trivial, ?_⟩
        · exact ⟨by simp only [dataOf, hreada3, Option.map_some', Option.some_inj]; exact hnaw,
            trivial⟩
        · exact ⟨by simp [nextOf, hreada3], by simp [prevOf, hreada3]⟩
  | cons b qs' =>
      have hpra : (a :: b :: qs').getLast (List.cons_ne_nil a (b :: qs')) ∈ (b :: qs') :=
        List.getLast_mem (List.cons_ne_nil b qs')
      have hanbq : a ∉ (b :: qs') := (List.nodup_cons.mp hndqs).1
      have hpra' : (a :: b :: qs').getLast (List.cons_ne_nil a (b :: qs')) ≠ a :=
        fun h0 => hanbq (h0 ▸ hpra)
      have hreada2 : readNode (freeNode (writeNode l.store
          ((a :: b :: qs').getLast (List.cons_ne_nil a (b :: qs')))
          { npr with next := some (LinkType.WeakLink a) }) tp) a = some na := by
        rw [readNode_freeNode_ne _ (Ne.symm hatp), readNode_writeNode_ne _ _ hpra', hna]
      have hreada3 : readNode (writeNode (freeNode (writeNode l.store
          ((a :: b :: qs').getLast (List.cons_ne_nil a (b :: qs')))
          { npr with next := some (LinkType.WeakLink a) }) tp) a
          { na with prev := some (LinkType.WeakLink
              ((a :: b :: qs').getLast (List.cons_ne_nil a (b :: qs')))) }) a
          = some { na with prev := some (LinkType.WeakLink
              ((a :: b :: qs').getLast (List.cons_ne_nil a (b :: qs')))) } := by
        refine readNode_writeNode_self _ _ _ ?_
        simp only [freeNode, writeNode, List.length_set]
        exact lt_length_of_readNode_eq_some hna
      have hreadpr3 : readNode (writeNode (freeNode (writeNode l.store
          ((a :: b :: qs').getLast (List.cons_ne_nil a (b :: qs')))
          { npr with next := some (LinkType.WeakLink a) }) tp) a
          { na with prev := some (LinkType.WeakLink
              ((a :: b :: qs').getLast (List.cons_ne_nil a (b :: qs')))) })
          ((a :: b :: qs').getLast (List.cons_ne_nil a (b :: qs')))
          = some { npr with next := some (LinkType.WeakLink a) } := by
        rw [readNode_writeNode_ne _ _ (Ne.symm hpra'), readNode_freeNode_ne _ (Ne.symm hprtp)]
        refine readNode_writeNode_self _ _ _ ?_
        exact lt_length_of_readNode_eq_some hnpr
      have hother : ∀ x ∈ (a :: b :: qs'), x ≠ a →
          x ≠ (a :: b :: qs').getLast (List.cons_ne_nil a (b :: qs')) →
          readNode (writeNode (freeNode (writeNode l.store
            ((a :: b :: qs').getLast (List.cons_ne_nil a (b :: qs')))
            { npr with next := some (LinkType.WeakLink a) }) tp) a
            { na with prev := some (LinkType.WeakLink
                ((a :: b :: qs').getLast (List.cons_ne_nil a (b :: qs')))) }) x
          = readNode l.store x := by
        intro x hx hxa hxpr
        have hxtp : x ≠ tp := fun h0 => htpqs (h0 ▸ hx)
        rw [readNode_writeNode_ne _ _ (Ne.symm hxa), readNode_freeNode_ne _ (Ne.symm hxtp),
          readNode_writeNode_ne _ _ (Ne.symm hxpr)]
      refine ⟨CdlList.mk
          (writeNode (freeNode (writeNode l.store
            ((a :: b :: qs').getLast (List.cons_ne_nil a (b :: qs')))
            { npr with next := some (LinkType.WeakLink a) }) tp) a
            { na with prev := some (LinkType.WeakLink
                ((a :: b :: qs').getLast (List.cons_ne_nil a (b :: qs')))) })
          l.head (some ((a :: b :: qs').getLast (List.cons_ne_nil a (b :: qs'))))
          (l.size - 1), ?_, ?_⟩
      · simp only [CdlList.pop, hemp, Bool.false_eq_true, if_false, hs0, if_true, hhead',
          htail', Option.bind_eq_bind, Option.some_bind, hntp, hntpprev, hnpr, hna,
          hreadtp1, hreada2, hreada3, hreadpr3, Option.pure_def, hntpd]
      · have hgl2 : (a :: b :: qs').getLast? =
            some ((a :: b :: qs').getLast (List.cons_ne_nil a (b :: qs'))) :=
          List.getLast?_eq_getLast _ _
        have hntdl2 : (a :: b :: qs').getLast (List.cons_ne_nil a (b :: qs'))
            ∉ (a :: b :: qs').dropLast :=
          not_mem_dropLast_of_getLast? hndqs hgl2
        refine ⟨by simp [hsize, ← hlenqs], hlenqs, by simpa using hhead',
          hgl2.symm, hndqs, ?_, ?_, ?_⟩
        · -- dataOk
          refine dataOk_congr (fun x hx => ?_) hdec.1
          by_cases hxa : x = a
          · subst hxa
            simp only [dataOf, hreada3, hna, Option.map_some']
          · by_cases hxpr : x = (a :: b :: qs').getLast (List.cons_ne_nil a (b :: qs'))
            · subst hxpr
              simp only [dataOf, hreadpr3, hnpr, Option.map_some']
            · simp only [dataOf, hother x hx hxa hxpr]
        · -- linksOk
          refine linksOk_congr (fun x hx => ?_) (fun x hx => ?_) hldec.1
          · have hx' : x ∈ (a :: b :: qs') := List.mem_of_mem_dropLast hx
            have hxpr : x ≠ (a :: b :: qs').getLast (List.cons_ne_nil a (b :: qs')) :=
              fun h0 => hntdl2 (h0 ▸ hx)
            by_cases hxa : x = a
            · subst hxa
              simp only [nextOf, hreada3, hna, Option.map_some']
            · simp only [nextOf, hother x hx' hxa hxpr]
          · have hx' : x ∈ (a :: b :: qs') := List.mem_of_mem_tail hx
            have hxa : x ≠ a := fun h0 => hanbq (h0 ▸ hx)
            by_cases hxpr : x = (a :: b :: qs').getLast (List.cons_ne_nil a (b :: qs'))
            · subst hxpr
              simp only [prevOf, hreadpr3, hnpr, Option.map_some']
            · simp only [prevOf, hother x hx' hxa hxpr]
        · -- wrapOk
          refine ⟨?_, ?_⟩
          · show isWeakLink (nextOf (writeNode (freeNode (writeNode l.store
                ((a :: b :: qs').getLast (List.cons_ne_nil a (b :: qs')))
                { npr with next := some (LinkType.WeakLink a) }) tp) a
                { na with prev := some (LinkType.WeakLink
                    ((a :: b :: qs').getLast (List.cons_ne_nil a (b :: qs')))) })
                ((a :: b :: qs').getLast (List.cons_ne_nil a (b :: qs'))))
            simp only [nextOf, hreadpr3, Option.map_some']
            exact trivial
          · show isWeakLink (prevOf (writeNode (freeNode (writeNode l.store
                ((a :: b :: qs').getLast (List.cons_ne_nil a (b :: qs')))
                { npr with next := some (LinkType.WeakLink a) }) tp) a
                { na with prev := some (LinkType.WeakLink
                    ((a :: b :: qs').getLast (List.cons_ne_nil a (b :: qs')))) }) a)
            simp only [prevOf, hreada3, Option.map_some']
            exact trivial

/-- Characterization of the wrap edges for a chain with distinct endpoints. -/
theorem wrapOk_iff {h : Heap T} {ps : List Ptr} {a b : Ptr} (hh : ps.head? = some a)
    (ht : ps.getLast? = some b) (hab : a ≠ b) :
    wrapOk h ps ↔ (isWeakLink (nextOf h b) ∧ isWeakLink (prevOf h a)) := by
  cases ps with
  | nil => simp at hh
  | cons x ps' =>
      cases ps' with
      | nil =>
          simp only [List.head?_cons, Option.some_inj] at hh
          simp only [List.getLast?_singleton, Option.some_inj] at ht
          exfalso
          apply hab
          rw [← hh, ← ht]
      | cons y ps'' =>
          simp only [List.head?_cons, Option.some_inj] at hh
          have ht' : (y :: ps'').getLast (List.cons_ne_nil y ps'') = b := by
            rw [List.getLast?_cons_cons,
              List.getLast?_eq_getLast _ (List.cons_ne_nil y ps'')] at ht
            exact Option.some_inj.mp ht
          show (isWeakLink (nextOf h ((y :: ps'').getLast (List.cons_ne_nil y ps''))) ∧
            isWeakLink (prevOf h x)) ↔ _
          rw [ht', hh]

/-! ## Abstract-level lemmas -/

theorem wf_new : Wf (CdlList.new : CdlList T) [] :=
  ⟨[], wfP_new⟩

/-- `pop` on an empty list returns `None` and leaves the list untouched. -/
theorem pop_empty {l : CdlList T} (h : l.size = 0) (b : Bool) :
    l.pop b = some (none, l) := by
  simp [CdlList.pop, CdlList.is_empty, h]

theorem wf_push_front {l : CdlList T} {vs : List T} (hw : Wf l vs) (t : T) :
    ∃ l', l.push t true = some l' ∧ Wf l' (t :: vs) := by
  obtain ⟨ps, hw⟩ := hw
  cases vs with
  | nil =>
      have hps : ps = [] := List.length_eq_zero.mp (hw.2.1.trans rfl)
      subst hps
      obtain ⟨l', h1, h2⟩ := push_nil_wf hw t true
      exact ⟨l', h1, ⟨_, h2⟩⟩
  | cons v vs' =>
      cases ps with
      | nil => exact absurd hw.2.1 (by simp)
      | cons p ps' =>
          obtain ⟨l', h1, h2⟩ := push_front_cons_wf hw t
          exact ⟨l', h1, ⟨_, h2⟩⟩

theorem wf_push_back {l : CdlList T} {vs : List T} (hw : Wf l vs) (t : T) :
    ∃ l', l.push t false = some l' ∧ Wf l' (vs ++ [t]) := by
  obtain ⟨ps, hw⟩ := hw
  cases vs with
  | nil =>
      have hps : ps = [] := List.length_eq_zero.mp (hw.2.1.trans rfl)
      subst hps
      obtain ⟨l', h1, h2⟩ := push_nil_wf hw t false
      exact ⟨l', h1, ⟨_, h2⟩⟩
  | cons v vs' =>
      cases ps with
      | nil => exact absurd hw.2.1 (by simp)
      | cons p ps' =>
          obtain ⟨l', h1, h2⟩ := push_back_cons_wf hw t
          exact ⟨l', h1, ⟨_, h2⟩⟩

theorem wf_pop_front {l : CdlList T} {vs : List T} (hw : Wf l vs) :
    ∃ l', l.pop true = some (vs.head?, l') ∧ Wf l' vs.tail := by
  obtain ⟨ps, hw⟩ := hw
  cases vs with
  | nil =>
      refine ⟨l, ?_, ⟨[], ?_⟩⟩
      · exact pop_empty (hw.1.trans rfl) true
      · have hps : ps = [] := List.length_eq_zero.mp (hw.2.1.trans rfl)
        subst hps
        exact hw
  | cons v vs' =>
      cases vs' with
      | nil =>
          cases ps with
          | nil => exact absurd hw.2.1 (by simp)
          | cons p ps' =>
              cases ps' with
              | nil =>
                  obtain ⟨l', h1, h2⟩ := pop_one_wf hw true
                  exact ⟨l', h1, ⟨_, h2⟩⟩
              | cons q ps'' => exact absurd hw.2.1 (by simp)
      | cons w vs'' =>
          cases ps with
          | nil => exact absurd hw.2.1 (by simp)
          | cons p ps' =>
              cases ps' with
              | nil => exact absurd hw.2.1 (by simp)
              | cons q ps'' =>
                  obtain ⟨l', h1, h2⟩ := pop_front_cons_wf hw
                  exact ⟨l', h1, ⟨_, h2⟩⟩

theorem wf_pop_back {l : CdlList T} {vs : List T} (hw : Wf l vs) :
    ∃ l', l.pop false = some (vs.getLast?, l') ∧ Wf l' vs.dropLast := by
  obtain ⟨ps, hw⟩ := hw
  rcases List.eq_nil_or_concat vs with rfl | ⟨ws, w, rfl⟩
  · refine ⟨l, ?_, ⟨[], ?_⟩⟩
    · exact pop_empty (hw.1.trans rfl) false
    · have hps : ps = [] := List.length_eq_zero.mp (hw.2.1.trans rfl)
      subst hps
      exact hw
  · rcases List.eq_nil_or_concat ps with rfl | ⟨ps0, tp, rfl⟩
    · exact absurd hw.2.1 (by simp)
    · simp only [List.concat_eq_append] at hw ⊢
      cases ws with
      | nil =>
          cases ps0 with
          | nil =>
              obtain ⟨l', h1, h2⟩ := pop_one_wf hw false
              refine ⟨l', ?_, ⟨_, h2⟩⟩
              simpa using h1
          | cons a qs =>
              have := hw.2.1
              simp at this
      | cons w0 ws' =>
          cases ps0 with
          | nil =>
              have := hw.2.1
              simp at this
          | cons a qs =>
              obtain ⟨l', h1, h2⟩ := pop_back_snoc_wf hw
              refine ⟨l', ?_, ?_⟩
              · rw [show (w0 :: ws' ++ [w] : List T) = (w0 :: ws') ++ [w] from rfl,
                  List.getLast?_concat]
                exact h1
              · rw [show (w0 :: ws' ++ [w] : List T) = (w0 :: ws') ++ [w] from rfl,
                  List.dropLast_concat]
                exact ⟨_, h2⟩

/-- `insert_at` at an interior index `k+1` (so `0 < k+1 < size`) succeeds,
does not touch the `head`/`tail` handles, and splices the fresh node into
the chain at position `k+1`. -/
theorem insert_at_interior_wf {l : CdlList T} {ps : List Ptr} {vs : List T} {k : Nat}
    (hw : WfP l ps vs) (hilt : k + 1 < vs.length) (t : T) :
    ∃ l', l.insert_at (k + 1) t = some l' ∧ l'.head = l.head ∧ l'.tail = l.tail ∧
      WfP l' (ps.take (k + 1) ++ l.store.length :: ps.drop (k + 1))
             (vs.take (k + 1) ++ t :: vs.drop (k + 1)) := by
  obtain ⟨hsize, hplen, hhead, htail, hnd, hdata, hlinks, hwrap⟩ := hw
  cases ps with
  | nil =>
      rw [← hplen] at hilt
      simp at hilt
  | cons p ps₁ =>
  cases vs with
  | nil => simp at hilt
  | cons v vs₁ =>
  have hi2 : k + 1 < (p :: ps₁).length := by rw [hplen]; exact hilt
  have hi1 : k < (p :: ps₁).length := Nat.lt_of_succ_lt hi2
  have hlen2 : 2 ≤ (p :: ps₁).length := by omega
  have hhead' : l.head = some p := by simpa using hhead
  have hvalid := dataOk_valid hdata
  have hltL : ∀ x ∈ (p :: ps₁), x < l.store.length := by
    intro x hx
    obtain ⟨n, hn⟩ := hvalid x hx
    exact lt_length_of_readNode_eq_some hn
  have hLmem : l.store.length ∉ (p :: ps₁) := fun hmem => absurd (hltL _ hmem) (lt_irrefl _)
  -- the two neighbours of the insertion point
  set pred := (p :: ps₁).get ⟨k, hi1⟩ with hpreddef
  set sl := (p :: ps₁).get ⟨k + 1, hi2⟩ with hsldef
  have hpget : (p :: ps₁)[k]? = some pred := by
    rw [List.getElem?_eq_getElem hi1]
    simp [hpreddef]
  have hsget : (p :: ps₁)[k + 1]? = some sl := by
    rw [List.getElem?_eq_getElem hi2]
    simp [hsldef]
  have hpredmem : pred ∈ (p :: ps₁) := by
    rw [hpreddef]
    exact List.get_mem _ _ _
  have hslmem : sl ∈ (p :: ps₁) := by
    rw [hsldef]
    exact List.get_mem _ _ _
  have hpredsl : pred ≠ sl := by
    rw [hpreddef, hsldef]
    simp only [List.get_eq_getElem]
    rw [Ne, hnd.getElem_inj_iff]
    omega
  have hpredL : pred ≠ l.store.length := Nat.ne_of_lt (hltL _ hpredmem)
  have hslL : sl ≠ l.store.length := Nat.ne_of_lt (hltL _ hslmem)
  obtain ⟨npred, hnpred⟩ := hvalid _ hpredmem
  obtain ⟨nsl, hnsl⟩ := hvalid _ hslmem
  have hpair : pairOk l.store pred sl := linksOk_pair hlinks hpget hsget
  have hnprednext : npred.next = some (LinkType.StrongLink sl) := by
    rcases nextOf_eq_some.mp hpair.1 with ⟨n, hn, hx⟩
    rw [hnpred] at hn
    cases hn
    exact hx
  -- execution conditions
  have hc0 : (k + 1 == 0) = false := by simp
  have hcs : (k + 1 == l.size) = false := by
    rw [beq_eq_false_iff_ne, hsize]
    intro h0
    rw [h0] at hilt
    exact lt_irrefl _ hilt
  have hng : ¬ (k + 1 > l.size) := by
    rw [hsize]
    omega
  -- the chain transfers to the heap with the fresh cell appended
  have hdata1 : dataOk (l.store ++ [some (Node.mk none none t)]) (p :: ps₁) (v :: vs₁) :=
    dataOk_congr (fun x hx => dataOf_append_lt _ _ (hltL x hx)) hdata
  have hlinks1 : linksOk (l.store ++ [some (Node.mk none none t)]) (p :: ps₁) :=
    linksOk_congr
      (fun x hx => nextOf_append_lt _ _ (hltL x (List.mem_of_mem_dropLast hx)))
      (fun x hx => prevOf_append_lt _ _ (hltL x (List.mem_of_mem_tail hx))) hlinks
  have hwalk : walkStrong (l.store ++ [some (Node.mk none none t)]) p k = some pred := by
    rw [walkStrong_chain hdata1 hlinks1 rfl hi1, hpget]
  have hpn1 : readNode (l.store ++ [some (Node.mk none none t)]) pred = some npred := by
    rw [readNode_append_lt _ _ (hltL _ hpredmem), hnpred]
  have hsn1 : readNode (l.store ++ [some (Node.mk none none t)]) sl = some nsl := by
    rw [readNode_append_lt _ _ (hltL _ hslmem), hnsl]
  -- reads in the final heap
  have hread4L : readNode (writeNode (writeNode (writeNode
      (l.store ++ [some (Node.mk none none t)])
      pred { npred with next := some (LinkType.StrongLink l.store.length) })
      sl { nsl with prev := some (LinkType.WeakLink l.store.length) })
      l.store.length
      (Node.mk (some (LinkType.StrongLink sl)) (some (LinkType.WeakLink pred)) t))
      l.store.length
      = some (Node.mk (some (LinkType.StrongLink sl)) (some (LinkType.WeakLink pred)) t) := by
    refine readNode_writeNode_self _ _ _ ?_
    simp [writeNode]
  have hread4pred : readNode (writeNode (writeNode (writeNode
      (l.store ++ [some (Node.mk none none t)])
      pred { npred with next := some (LinkType.StrongLink l.store.length) })
      sl { nsl with prev := some (LinkType.WeakLink l.store.length) })
      l.store.length
      (Node.mk (some (LinkType.StrongLink sl)) (some (LinkType.WeakLink pred)) t)) pred
      = some { npred with next := some (LinkType.StrongLink l.store.length) } := by
    rw [readNode_writeNode_ne _ _ (Ne.symm hpredL), readNode_writeNode_ne _ _ (Ne.symm hpredsl)]
    refine readNode_writeNode_self _ _ _ ?_
    simp only [List.length_append, List.length_singleton]
    exact Nat.lt_succ_of_lt (hltL _ hpredmem)
  have hread4sl : readNode (writeNode (writeNode (writeNode
      (l.store ++ [some (Node.mk none none t)])
      pred { npred with next := some (LinkType.StrongLink l.store.length) })
      sl { nsl with prev := some (LinkType.WeakLink l.store.length) })
      l.store.length
      (Node.mk (some (LinkType.StrongLink sl)) (some (LinkType.WeakLink pred)) t)) sl
      = some { nsl with prev := some (LinkType.WeakLink l.store.length) } := by
    rw [readNode_writeNode_ne _ _ (Ne.symm hslL)]
    refine readNode_writeNode_self _ _ _ ?_
    simp only [writeNode, List.length_set, List.length_append, List.length_singleton]
    exact Nat.lt_succ_of_lt (hltL _ hslmem)
  have hother : ∀ x ∈ (p :: ps₁), x ≠ pred → x ≠ sl →
      readNode (writeNode (writeNode (writeNode
        (l.store ++ [some (Node.mk none none t)])
        pred { npred with next := some (LinkType.StrongLink l.store.length) })
        sl { nsl with prev := some (LinkType.WeakLink l.store.length) })
        l.store.length
        (Node.mk (some (LinkType.StrongLink sl)) (some (LinkType.WeakLink pred)) t)) x
      = readNode l.store x := by
    intro x hx hxpred hxsl
    rw [readNode_writeNode_ne _ _ (Ne.symm (Nat.ne_of_lt (hltL x hx))),
      readNode_writeNode_ne _ _ (Ne.symm hxsl), readNode_writeNode_ne _ _ (Ne.symm hxpred),
      readNode_append_lt _ _ (hltL x hx)]
  refine ⟨CdlList.mk
      (writeNode (writeNode (writeNode
        (l.store ++ [some (Node.mk none none t)])
        pred { npred with next := some (LinkType.StrongLink l.store.length) })
        sl { nsl with prev := some (LinkType.WeakLink l.store.length) })
        l.store.length
        (Node.mk (some (LinkType.StrongLink sl)) (some (LinkType.WeakLink pred)) t))
      l.head l.tail (l.size + 1), ?_, rfl, rfl, ?_⟩
  · -- execution
    rw [CdlList.insert_at]
    rw [hc0, hcs]
    simp only [Bool.false_eq_true, if_false]
    rw [if_neg hng]
    simp only [alloc, hhead', Option.bind_eq_bind, Option.some_bind,
      Nat.add_sub_cancel, hwalk, hpn1, hnprednext, hsn1]
  · -- well-formedness
    have hne : (p :: ps₁) ≠ [] := List.cons_ne_nil _ _
    have hiltn : k + 1 < vs₁.length + 1 := by simpa using hilt
    have hplen' : ps₁.length = vs₁.length := by simpa using hplen
    have hslget : (p :: ps₁)[k + 1] = sl := by
      rw [hsldef]
      simp [List.get_eq_getElem]
    have htake : List.take (k + 1) (p :: ps₁) = List.take k (p :: ps₁) ++ [pred] := by
      rw [List.take_succ, hpget]
      rfl
    have hdropd : List.drop (k + 1) (p :: ps₁) = sl :: List.drop (k + 2) (p :: ps₁) := by
      rw [List.drop_eq_getElem_cons hi2, hslget]
    obtain ⟨hndtake, hnddrop, hdisjtd⟩ :=
      List.nodup_append.mp (show ((p :: ps₁).take (k + 1) ++ (p :: ps₁).drop (k + 1)).Nodup by
        rw [List.take_append_drop]; exact hnd)
    have hslmemdrop : sl ∈ List.drop (k + 1) (p :: ps₁) := by
      rw [hdropd]
      exact List.mem_cons_self _ _
    have hslntake : sl ∉ List.take (k + 1) (p :: ps₁) := fun hm => hdisjtd hm hslmemdrop
    have hpredmemtake : pred ∈ List.take (k + 1) (p :: ps₁) := by
      rw [htake]
      simp
    have hpredndrop : pred ∉ List.drop (k + 1) (p :: ps₁) := fun hm => hdisjtd hpredmemtake hm
    have htakelast : (List.take (k + 1) (p :: ps₁)).getLast? = some pred := by
      rw [htake, List.getLast?_concat]
    have hdrophead : (List.drop (k + 1) (p :: ps₁)).head? = some sl := by
      rw [hdropd]
      rfl
    have htklen : ((p :: ps₁).take (k + 1)).length = ((v :: vs₁).take (k + 1)).length := by
      simp [List.length_take, hplen']
    have hdata_split := (dataOk_append htklen).mp
      (show dataOk l.store ((p :: ps₁).take (k + 1) ++ (p :: ps₁).drop (k + 1))
          ((v :: vs₁).take (k + 1) ++ (v :: vs₁).drop (k + 1)) by
        rw [List.take_append_drop, List.take_append_drop]; exact hdata)
    have hlinks_split := (linksOk_append htakelast hdrophead).mp
      (show linksOk l.store ((p :: ps₁).take (k + 1) ++ (p :: ps₁).drop (k + 1)) by
        rw [List.take_append_drop]; exact hlinks)
    -- transfer of unchanged data
    have hdcong : ∀ x ∈ (p :: ps₁),
        dataOf (writeNode (writeNode (writeNode
          (l.store ++ [some (Node.mk none none t)])
          pred { npred with next := some (LinkType.StrongLink l.store.length) })
          sl { nsl with prev := some (LinkType.WeakLink l.store.length) })
          l.store.length
          (Node.mk (some (LinkType.StrongLink sl)) (some (LinkType.WeakLink pred)) t)) x
        = dataOf l.store x := by
      intro x hx
      by_cases hxp : x = pred
      · subst hxp
        simp only [dataOf, hread4pred, hnpred, Option.map_some']
      · by_cases hxs : x = sl
        · subst hxs
          simp only [dataOf, hread4sl, hnsl, Option.map_some']
        · simp only [dataOf, hother x hx hxp hxs]
    -- the tail pointer of the old chain
    have htl? : (p :: ps₁).getLast? = some ((p :: ps₁).getLast hne) :=
      List.getLast?_eq_getLast _ hne
    have hdropgl : (List.drop (k + 1) (p :: ps₁)).getLast? = (p :: ps₁).getLast? := by
      conv_rhs => rw [← List.take_append_drop (k + 1) (p :: ps₁)]
      rw [List.getLast?_append, hdropd,
        List.getLast?_eq_getLast _ (List.cons_ne_nil _ _), Option.or_some]
    have hgl : ((p :: ps₁).take (k + 1) ++
        l.store.length :: (p :: ps₁).drop (k + 1)).getLast? = (p :: ps₁).getLast? := by
      rw [List.getLast?_append,
        show (l.store.length :: List.drop (k + 1) (p :: ps₁)).getLast?
          = (List.drop (k + 1) (p :: ps₁)).getLast? from by
            rw [hdropd, List.getLast?_cons_cons],
        hdropgl, htl?, Option.or_some, ← htl?]
    have htlmem_drop : (p :: ps₁).getLast hne ∈ List.drop (k + 1) (p :: ps₁) := by
      refine List.mem_of_getLast?_eq_some (a := (p :: ps₁).getLast hne) ?_
      rw [hdropgl, htl?]
    have hpmemtake : p ∈ List.take (k + 1) (p :: ps₁) := by
      rw [List.take_succ_cons]
      exact List.mem_cons_self _ _
    have hptl : p ≠ (p :: ps₁).getLast hne :=
      fun h0 => hdisjtd hpmemtake (h0 ▸ htlmem_drop)
    have htlmem : (p :: ps₁).getLast hne ∈ (p :: ps₁) := List.getLast_mem hne
    refine ⟨?_, ?_, ?_, ?_, ?_, ?_, ?_, ?_⟩
    · -- size
      simp only [List.length_append, List.length_cons, List.length_take, List.length_drop,
        hsize]
      omega
    · -- lengths
      simp only [List.length_append, List.length_cons, List.length_take, List.length_drop]
      simp only [List.length_cons, hplen']
    · -- head
      rw [List.take_succ_cons]
      simpa using hhead'
    · -- tail
      rw [hgl]
      exact htail
    · -- nodup
      show ((p :: ps₁).take (k + 1) ++ l.store.length :: (p :: ps₁).drop (k + 1)).Nodup
      rw [List.nodup_middle, List.take_append_drop]
      exact List.nodup_cons.mpr ⟨hLmem, hnd⟩
    · -- dataOk
      rw [dataOk_append htklen]
      refine ⟨dataOk_congr (fun x hx => hdcong x (List.mem_of_mem_take hx)) hdata_split.1,
        ?_, dataOk_congr (fun x hx => hdcong x (List.drop_subset _ _ hx)) hdata_split.2⟩
      simp only [dataOf, hread4L, Option.map_some']
    · -- linksOk
      rw [linksOk_append htakelast
        (show (l.store.length :: (p :: ps₁).drop (k + 1)).head? = some l.store.length from rfl)]
      refine ⟨?_, ⟨?_, ?_⟩, ?_⟩
      · -- the prefix up to the predecessor
        refine linksOk_congr (fun x hx => ?_) (fun x hx => ?_) hlinks_split.1
        · have hx1 : x ∈ List.take (k + 1) (p :: ps₁) := List.mem_of_mem_dropLast hx
          have hx2 : x ∈ (p :: ps₁) := List.mem_of_mem_take hx1
          have hxpred : x ≠ pred :=
            fun h0 => (not_mem_dropLast_of_getLast? hndtake htakelast) (h0 ▸ hx)
          have hxsl : x ≠ sl := fun h0 => hslntake (h0 ▸ hx1)
          simp only [nextOf, hother x hx2 hxpred hxsl]
        · have hx1 : x ∈ List.take (k + 1) (p :: ps₁) := List.mem_of_mem_tail hx
          have hx2 : x ∈ (p :: ps₁) := List.mem_of_mem_take hx1
          have hxsl : x ≠ sl := fun h0 => hslntake (h0 ▸ hx1)
          by_cases hxpred : x = pred
          · subst hxpred
            simp only [prevOf, hread4pred, hnpred, Option.map_some']
          · simp only [prevOf, hother x hx2 hxpred hxsl]
      · simp only [nextOf, hread4pred, Option.map_some']
      · simp only [prevOf, hread4L, Option.map_some']
      · -- the new node and the suffix from the successor
        rw [hdropd]
        have hnddrop' : (sl :: List.drop (k + 2) (p :: ps₁)).Nodup := by
          rw [← hdropd]
          exact hnddrop
        have hlinksdrop' : linksOk l.store (sl :: List.drop (k + 2) (p :: ps₁)) := by
          rw [← hdropd]
          exact hlinks_split.2.2
        refine ⟨⟨?_, ?_⟩, ?_⟩
        · simp only [nextOf, hread4L, Option.map_some']
        · simp only [prevOf, hread4sl, Option.map_some']
        · refine linksOk_congr (fun x hx => ?_) (fun x hx => ?_) hlinksdrop'
          · have hx1 : x ∈ List.drop (k + 1) (p :: ps₁) := by
              rw [hdropd]
              exact List.mem_of_mem_dropLast hx
            have hx2 : x ∈ (p :: ps₁) := List.drop_subset _ _ hx1
            have hxpred : x ≠ pred := fun h0 => hpredndrop (h0 ▸ hx1)
            by_cases hxsl : x = sl
            · subst hxsl
              simp only [nextOf, hread4sl, hnsl, Option.map_some']
            · simp only [nextOf, hother x hx2 hxpred hxsl]
          · have hx1 : x ∈ List.drop (k + 1) (p :: ps₁) := by
              rw [hdropd]
              exact List.mem_of_mem_tail hx
            have hx2 : x ∈ (p :: ps₁) := List.drop_subset _ _ hx1
            have hxpred : x ≠ pred := fun h0 => hpredndrop (h0 ▸ hx1)
            have hxsl : x ≠ sl := fun h0 => (List.nodup_cons.mp hnddrop').1 (h0 ▸ hx)
            simp only [prevOf, hother x hx2 hxpred hxsl]
    · -- wrapOk
      rw [wrapOk_iff (by rw [List.take_succ_cons]; rfl) (hgl.trans htl?) hptl]
      obtain ⟨hwtl, hwp⟩ :=
        (wrapOk_iff (show (p :: ps₁).head? = some p from rfl) htl? hptl).mp hwrap
      constructor
      · -- the old tail's next link is untouched (or rewritten keeping weakness)
        by_cases htlsl : (p :: ps₁).getLast hne = sl
        · rw [htlsl] at hwtl ⊢
          simp only [nextOf, hnsl, Option.map_some'] at hwtl
          simp only [nextOf, hread4sl, Option.map_some']
          exact hwtl
        · have htlpred : (p :: ps₁).getLast hne ≠ pred :=
            fun h0 => hpredndrop (h0 ▸ htlmem_drop)
          simp only [nextOf, hother _ htlmem htlpred htlsl]
          exact hwtl
      · -- the head's prev link
        have hpsl : p ≠ sl := fun h0 => hdisjtd hpmemtake (h0 ▸ hslmemdrop)
        by_cases hppred : p = pred
        · rw [hppred] at hwp ⊢
          simp only [prevOf, hnpred, Option.map_some'] at hwp
          simp only [prevOf, hread4pred, Option.map_some']
          exact hwp
        · simp only [prevOf, hother p (List.mem_cons_self _ _) hppred hpsl]
          exact hwp

/-- `remove_at` at an interior index `k+1` (so `0 < k+1 < size-1`) succeeds,
does not touch the `head`/`tail` handles, unlinks and frees the node at
position `k+1` and returns its payload. -/
theorem remove_at_interior_wf {l : CdlList T} {ps : List Ptr} {vs : List T} {k : Nat}
    (hw : WfP l ps vs) (hilt : k + 2 < vs.length) :
    ∃ l', l.remove_at (k + 1) = some (vs[k + 1]?, l') ∧ l'.head = l.head ∧ l'.tail = l.tail ∧
      WfP l' (ps.take (k + 1) ++ ps.drop (k + 2)) (vs.take (k + 1) ++ vs.drop (k + 2)) := by
  obtain ⟨hsize, hplen, hhead, htail, hnd, hdata, hlinks, hwrap⟩ := hw
  cases ps with
  | nil =>
      rw [← hplen] at hilt
      simp at hilt
  | cons p ps₁ =>
  cases vs with
  | nil => simp at hilt
  | cons v vs₁ =>
  have hi3 : k + 2 < (p :: ps₁).length := by rw [hplen]; exact hilt
  have hi2 : k + 1 < (p :: ps₁).length := Nat.lt_of_succ_lt hi3
  have hi1 : k < (p :: ps₁).length := Nat.lt_of_succ_lt hi2
  have hhead' : l.head = some p := by simpa using hhead
  have hne : (p :: ps₁) ≠ [] := List.cons_ne_nil _ _
  have hvalid := dataOk_valid hdata
  set pred := (p :: ps₁).get ⟨k, hi1⟩ with hpreddef
  set tgt := (p :: ps₁).get ⟨k + 1, hi2⟩ with htgtdef
  set succ := (p :: ps₁).get ⟨k + 2, hi3⟩ with hsuccdef
  have hpget : (p :: ps₁)[k]? = some pred := by
    rw [List.getElem?_eq_getElem hi1]
    simp [hpreddef]
  have htget : (p :: ps₁)[k + 1]? = some tgt := by
    rw [List.getElem?_eq_getElem hi2]
    simp [htgtdef]
  have hsget : (p :: ps₁)[k + 2]? = some succ := by
    rw [List.getElem?_eq_getElem hi3]
    simp [hsuccdef]
  have htgtget : (p :: ps₁)[k + 1] = tgt := by
    rw [htgtdef]
    simp [List.get_eq_getElem]
  have hsuccget : (p :: ps₁)[k + 2] = succ := by
    rw [hsuccdef]
    simp [List.get_eq_getElem]
  have hpredmem : pred ∈ (p :: ps₁) := by
    rw [hpreddef]
    exact List.get_mem _ _ _
  have htgtmem : tgt ∈ (p :: ps₁) := by
    rw [htgtdef]
    exact List.get_mem _ _ _
  have hsuccmem : succ ∈ (p :: ps₁) := by
    rw [hsuccdef]
    exact List.get_mem _ _ _
  obtain ⟨npred, hnpred⟩ := hvalid _ hpredmem
  obtain ⟨nsucc, hnsucc⟩ := hvalid _ hsuccmem
  obtain ⟨ntgt, hntgt⟩ := hvalid _ htgtmem
  have hntgtd : some ntgt.data = (v :: vs₁)[k + 1]? := by
    rw [← dataOk_get hdata htget]
    simp [dataOf, hntgt]
  -- link facts at the removal site
  have hpair1 : pairOk l.store pred tgt := linksOk_pair hlinks hpget htget
  have hpair2 : pairOk l.store tgt succ := linksOk_pair hlinks htget hsget
  have hnprednext : npred.next = some (LinkType.StrongLink tgt) := by
    rcases nextOf_eq_some.mp hpair1.1 with ⟨n, hn, hx⟩
    rw [hnpred] at hn
    cases hn
    exact hx
  have hntgtnext : ntgt.next = some (LinkType.StrongLink succ) := by
    rcases nextOf_eq_some.mp hpair2.1 with ⟨n, hn, hx⟩
    rw [hntgt] at hn
    cases hn
    exact hx
  -- decompositions of the chain
  have htake : List.take (k + 1) (p :: ps₁) = List.take k (p :: ps₁) ++ [pred] := by
    rw [List.take_succ, hpget]
    rfl
  have hdropd1 : List.drop (k + 1) (p :: ps₁) = tgt :: List.drop (k + 2) (p :: ps₁) := by
    rw [List.drop_eq_getElem_cons hi2, htgtget]
  have hdropd2 : List.drop (k + 2) (p :: ps₁) = succ :: List.drop (k + 3) (p :: ps₁) := by
    rw [List.drop_eq_getElem_cons hi3, hsuccget]
  obtain ⟨hndtake, hnddrop, hdisjtd⟩ :=
    List.nodup_append.mp (show ((p :: ps₁).take (k + 1) ++ (p :: ps₁).drop (k + 1)).Nodup by
      rw [List.take_append_drop]; exact hnd)
  have htgtmemdrop : tgt ∈ List.drop (k + 1) (p :: ps₁) := by
    rw [hdropd1]
    exact List.mem_cons_self _ _
  have hsuccmemdrop2 : succ ∈ List.drop (k + 2) (p :: ps₁) := by
    rw [hdropd2]
    exact List.mem_cons_self _ _
  have hsuccmemdrop1 : succ ∈ List.drop (k + 1) (p :: ps₁) := by
    rw [hdropd1]
    exact List.mem_cons_of_mem _ hsuccmemdrop2
  have hpredmemtake : pred ∈ List.take (k + 1) (p :: ps₁) := by
    rw [htake]
    simp
  have hpmemtake : p ∈ List.take (k + 1) (p :: ps₁) := by
    rw [List.take_succ_cons]
    exact List.mem_cons_self _ _
  have hpredntgt : pred ≠ tgt := fun h0 => hdisjtd hpredmemtake (h0 ▸ htgtmemdrop)
  have hprednsucc : pred ≠ succ := fun h0 => hdisjtd hpredmemtake (h0 ▸ hsuccmemdrop1)
  have hnddrop1 : (tgt :: List.drop (k + 2) (p :: ps₁)).Nodup := by
    rw [← hdropd1]
    exact hnddrop
  have htgtndrop2 : tgt ∉ List.drop (k + 2) (p :: ps₁) := (List.nodup_cons.mp hnddrop1).1
  have htgtnsucc : tgt ≠ succ := fun h0 => htgtndrop2 (h0 ▸ hsuccmemdrop2)
  have htakelast : (List.take (k + 1) (p :: ps₁)).getLast? = some pred := by
    rw [htake, List.getLast?_concat]
  have hdrophead2 : (List.drop (k + 2) (p :: ps₁)).head? = some succ := by
    rw [hdropd2]
    rfl
  -- execution conditions
  have hge : ¬ (k + 1 ≥ l.size) := by
    rw [hsize]
    omega
  have hc0 : (k + 1 == 0) = false := by simp
  have hcs1 : (k + 1 == l.size - 1) = false := by
    rw [beq_eq_false_iff_ne, hsize]
    omega
  have hwalk : walkStrong l.store p k = some pred := by
    rw [walkStrong_chain hdata hlinks rfl hi1, hpget]
  -- reads in the final heap
  have hread3pred : readNode (freeNode (writeNode (writeNode l.store
      pred { npred with next := some (LinkType.StrongLink succ) })
      succ { nsucc with prev := some (LinkType.WeakLink pred) }) tgt) pred
      = some { npred with next := some (LinkType.StrongLink succ) } := by
    rw [readNode_freeNode_ne _ (Ne.symm hpredntgt), readNode_writeNode_ne _ _ (Ne.symm hprednsucc)]
    exact readNode_writeNode_self _ _ _ (lt_length_of_readNode_eq_some hnpred)
  have hread3succ : readNode (freeNode (writeNode (writeNode l.store
      pred { npred with next := some (LinkType.StrongLink succ) })
      succ { nsucc with prev := some (LinkType.WeakLink pred) }) tgt) succ
      = some { nsucc with prev := some (LinkType.WeakLink pred) } := by
    rw [readNode_freeNode_ne _ htgtnsucc]
    refine readNode_writeNode_self _ _ _ ?_
    simp only [writeNode, List.length_set]
    exact lt_length_of_readNode_eq_some hnsucc
  have hother : ∀ x ∈ (p :: ps₁), x ≠ pred → x ≠ succ → x ≠ tgt →
      readNode (freeNode (writeNode (writeNode l.store
        pred { npred with next := some (LinkType.StrongLink succ) })
        succ { nsucc with prev := some (LinkType.WeakLink pred) }) tgt) x
      = readNode l.store x := by
    intro x _ hxpred hxsucc hxtgt
    rw [readNode_freeNode_ne _ (Ne.symm hxtgt), readNode_writeNode_ne _ _ (Ne.symm hxsucc),
      readNode_writeNode_ne _ _ (Ne.symm hxpred)]
  refine ⟨CdlList.mk
      (freeNode (writeNode (writeNode l.store
        pred { npred with next := some (LinkType.StrongLink succ) })
        succ { nsucc with prev := some (LinkType.WeakLink pred) }) tgt)
      l.head l.tail (l.size - 1), ?_, rfl, rfl, ?_⟩
  · -- execution
    rw [← hntgtd, CdlList.remove_at, if_neg hge]
    rw [hc0, hcs1]
    simp only [Bool.false_eq_true, if_false]
    simp only [hhead', Option.bind_eq_bind, Option.some_bind, Nat.add_sub_cancel,
      hwalk, hnpred, hnprednext, hntgt, hntgtnext, hnsucc]
  · -- well-formedness
    have hplen' : ps₁.length = vs₁.length := by simpa using hplen
    have htklen : ((p :: ps₁).take (k + 1)).length = ((v :: vs₁).take (k + 1)).length := by
      simp [List.length_take, hplen']
    -- value-side decomposition
    have hiltv : k + 1 < (v :: vs₁).length := Nat.lt_of_succ_lt hilt
    have hdropdv : List.drop (k + 1) (v :: vs₁)
        = (v :: vs₁)[k + 1] :: List.drop (k + 2) (v :: vs₁) :=
      List.drop_eq_getElem_cons hiltv
    have hdata_split := (dataOk_append htklen).mp
      (show dataOk l.store ((p :: ps₁).take (k + 1) ++ (p :: ps₁).drop (k + 1))
          ((v :: vs₁).take (k + 1) ++ (v :: vs₁).drop (k + 1)) by
        rw [List.take_append_drop, List.take_append_drop]; exact hdata)
    have hdata_drop2 : dataOk l.store ((p :: ps₁).drop (k + 2)) ((v :: vs₁).drop (k + 2)) := by
      have h2 := hdata_split.2
      rw [hdropd1, hdropdv] at h2
      exact h2.2
    have hlinks_split := (linksOk_append htakelast
      (show (List.drop (k + 1) (p :: ps₁)).head? = some tgt from by rw [hdropd1]; rfl)).mp
      (show linksOk l.store ((p :: ps₁).take (k + 1) ++ (p :: ps₁).drop (k + 1)) by
        rw [List.take_append_drop]; exact hlinks)
    have hlinks_drop2 : linksOk l.store (succ :: List.drop (k + 3) (p :: ps₁)) := by
      have h2 := hlinks_split.2.2
      rw [hdropd1, hdropd2] at h2
      exact h2.2
    have hnddrop2 : (succ :: List.drop (k + 3) (p :: ps₁)).Nodup := by
      have h2 := (List.nodup_cons.mp hnddrop1).2
      rw [hdropd2] at h2
      exact h2
    -- the tail pointer of the old chain
    have htl? : (p :: ps₁).getLast? = some ((p :: ps₁).getLast hne) :=
      List.getLast?_eq_getLast _ hne
    have hdropgl2 : (List.drop (k + 2) (p :: ps₁)).getLast? = (p :: ps₁).getLast? := by
      conv_rhs => rw [← List.take_append_drop (k + 2) (p :: ps₁)]
      rw [List.getLast?_append, hdropd2,
        List.getLast?_eq_getLast _ (List.cons_ne_nil _ _), Option.or_some]
    have hgl : ((p :: ps₁).take (k + 1) ++ (p :: ps₁).drop (k + 2)).getLast?
        = (p :: ps₁).getLast? := by
      rw [List.getLast?_append, hdropgl2, htl?, Option.or_some, ← htl?]
    have htlmem_drop2 : (p :: ps₁).getLast hne ∈ List.drop (k + 2) (p :: ps₁) := by
      refine List.mem_of_getLast?_eq_some (a := (p :: ps₁).getLast hne) ?_
      rw [hdropgl2, htl?]
    have htlmem_drop1 : (p :: ps₁).getLast hne ∈ List.drop (k + 1) (p :: ps₁) := by
      rw [hdropd1]
      exact List.mem_cons_of_mem _ htlmem_drop2
    have hptl : p ≠ (p :: ps₁).getLast hne :=
      fun h0 => hdisjtd hpmemtake (h0 ▸ htlmem_drop1)
    have htlmem : (p :: ps₁).getLast hne ∈ (p :: ps₁) := List.getLast_mem hne
    have hdcong : ∀ x ∈ (p :: ps₁), x ≠ tgt →
        dataOf (freeNode (writeNode (writeNode l.store
          pred { npred with next := some (LinkType.StrongLink succ) })
          succ { nsucc with prev := some (LinkType.WeakLink pred) }) tgt) x
        = dataOf l.store x := by
      intro x hx hxtgt
      by_cases hxp : x = pred
      · subst hxp
        simp only [dataOf, hread3pred, hnpred, Option.map_some']
      · by_cases hxs : x = succ
        · subst hxs
          simp only [dataOf, hread3succ, hnsucc, Option.map_some']
        · simp only [dataOf, hother x hx hxp hxs hxtgt]
    have hiltn : k + 2 < vs₁.length + 1 := by simpa using hilt
    refine ⟨?_, ?_, ?_, ?_, ?_, ?_, ?_, ?_⟩
    · -- size
      simp only [List.length_append, List.length_cons, List.length_take, List.length_drop,
        hsize]
      omega
    · -- lengths
      simp only [List.length_append, List.length_cons, List.length_take, List.length_drop,
        hplen']
    · -- head
      rw [List.take_succ_cons]
      simpa using hhead'
    · -- tail
      rw [hgl]
      exact htail
    · -- nodup
      have hsub : List.Sublist ((p :: ps₁).take (k + 1) ++ (p :: ps₁).drop (k + 2)) (p :: ps₁) := by
        conv_rhs => rw [← List.take_append_drop (k + 1) (p :: ps₁)]
        rw [hdropd1]
        exact List.Sublist.append_left (List.sublist_cons_self _ _) _
      exact List.Sublist.nodup hsub hnd
    · -- dataOk
      rw [dataOk_append htklen]
      refine ⟨dataOk_congr (fun x hx => ?_) hdata_split.1,
        dataOk_congr (fun x hx => ?_) hdata_drop2⟩
      · have hx1 : x ∈ (p :: ps₁) := List.mem_of_mem_take hx
        have hxtgt : x ≠ tgt := fun h0 => hdisjtd (h0 ▸ hx) htgtmemdrop
        exact hdcong x hx1 hxtgt
      · have hx0 : x ∈ List.drop (k + 1) (p :: ps₁) := by
          rw [hdropd1]
          exact List.mem_cons_of_mem _ hx
        have hx1 : x ∈ (p :: ps₁) := List.drop_subset _ _ hx0
        have hxtgt : x ≠ tgt := fun h0 => htgtndrop2 (h0 ▸ hx)
        exact hdcong x hx1 hxtgt
    · -- linksOk
      rw [linksOk_append htakelast hdrophead2]
      refine ⟨?_, ⟨?_, ?_⟩, ?_⟩
      · refine linksOk_congr (fun x hx => ?_) (fun x hx => ?_) hlinks_split.1
        · have hx1 : x ∈ List.take (k + 1) (p :: ps₁) := List.mem_of_mem_dropLast hx
          have hx2 : x ∈ (p :: ps₁) := List.mem_of_mem_take hx1
          have hxpred : x ≠ pred :=
            fun h0 => (not_mem_dropLast_of_getLast? hndtake htakelast) (h0 ▸ hx)
          have hxsucc : x ≠ succ := fun h0 => hdisjtd (h0 ▸ hx1) hsuccmemdrop1
          have hxtgt : x ≠ tgt := fun h0 => hdisjtd (h0 ▸ hx1) htgtmemdrop
          simp only [nextOf, hother x hx2 hxpred hxsucc hxtgt]
        · have hx1 : x ∈ List.take (k + 1) (p :: ps₁) := List.mem_of_mem_tail hx
          have hx2 : x ∈ (p :: ps₁) := List.mem_of_mem_take hx1
          have hxsucc : x ≠ succ := fun h0 => hdisjtd (h0 ▸ hx1) hsuccmemdrop1
          have hxtgt : x ≠ tgt := fun h0 => hdisjtd (h0 ▸ hx1) htgtmemdrop
          by_cases hxpred : x = pred
          · subst hxpred
            simp only [prevOf, hread3pred, hnpred, Option.map_some']
          · simp only [prevOf, hother x hx2 hxpred hxsucc hxtgt]
      · simp only [nextOf, hread3pred, Option.map_some']
      · simp only [prevOf, hread3succ, Option.map_some']
      · rw [hdropd2]
        refine linksOk_congr (fun x hx => ?_) (fun x hx => ?_) hlinks_drop2
        · have hx0 : x ∈ List.drop (k + 2) (p :: ps₁) := by
            rw [hdropd2]
            exact List.mem_of_mem_dropLast hx
          have hx0' : x ∈ List.drop (k + 1) (p :: ps₁) := by
            rw [hdropd1]
            exact List.mem_cons_of_mem _ hx0
          have hx1 : x ∈ (p :: ps₁) := List.drop_subset _ _ hx0'
          have hxpred : x ≠ pred := fun h0 => hdisjtd hpredmemtake (h0 ▸ hx0')
          have hxtgt : x ≠ tgt := fun h0 => htgtndrop2 (h0 ▸ hx0)
          by_cases hxsucc : x = succ
          · subst hxsucc
            simp only [nextOf, hread3succ, hnsucc, Option.map_some']
          · simp only [nextOf, hother x hx1 hxpred hxsucc hxtgt]
        · have hx0 : x ∈ List.drop (k + 2) (p :: ps₁) := by
            rw [hdropd2]
            exact List.mem_of_mem_tail hx
          have hx0' : x ∈ List.drop (k + 1) (p :: ps₁) := by
            rw [hdropd1]
            exact List.mem_cons_of_mem _ hx0
          have hx1 : x ∈ (p :: ps₁) := List.drop_subset _ _ hx0'
          have hxpred : x ≠ pred := fun h0 => hdisjtd hpredmemtake (h0 ▸ hx0')
          have hxtgt : x ≠ tgt := fun h0 => htgtndrop2 (h0 ▸ hx0)
          have hxsucc : x ≠ succ := fun h0 => (List.nodup_cons.mp hnddrop2).1 (h0 ▸ hx)
          simp only [prevOf, hother x hx1 hxpred hxsucc hxtgt]
    · -- wrapOk
      rw [wrapOk_iff (by rw [List.take_succ_cons]; rfl) (hgl.trans htl?) hptl]
      obtain ⟨hwtl, hwp⟩ :=
        (wrapOk_iff (show (p :: ps₁).head? = some p from rfl) htl? hptl).mp hwrap
      have htlntgt : (p :: ps₁).getLast hne ≠ tgt := fun h0 => htgtndrop2 (h0 ▸ htlmem_drop2)
      have htlnpred : (p :: ps₁).getLast hne ≠ pred :=
        fun h0 => hdisjtd hpredmemtake (h0 ▸ htlmem_drop1)
      constructor
      · by_cases htlsucc : (p :: ps₁).getLast hne = succ
        · rw [htlsucc] at hwtl ⊢
          simp only [nextOf, hnsucc, Option.map_some'] at hwtl
          simp only [nextOf, hread3succ, Option.map_some']
          exact hwtl
        · simp only [nextOf, hother _ htlmem htlnpred htlsucc htlntgt]
          exact hwtl
      · have hpsucc : p ≠ succ := fun h0 => hdisjtd hpmemtake (h0 ▸ hsuccmemdrop1)
        have hptgt : p ≠ tgt := fun h0 => hdisjtd hpmemtake (h0 ▸ htgtmemdrop)
        by_cases hppred : p = pred
        · rw [hppred] at hwp ⊢
          simp only [prevOf, hnpred, Option.map_some'] at hwp
          simp only [prevOf, hread3pred, Option.map_some']
          exact hwp
        · simp only [prevOf, hother p (List.mem_cons_self _ _) hppred hpsucc hptgt]
          exact hwp

theorem isWeakLink_iff {o : Option (Option LinkType)} :
    isWeakLink o ↔ ∃ w, o = some (some (LinkType.WeakLink w)) := by
  cases o with
  | none => simp [isWeakLink]
  | some o1 =>
      cases o1 with
      | none => simp [isWeakLink]
      | some lk =>
          cases lk with
          | StrongLink q => simp [isWeakLink]
          | WeakLink q => simp [isWeakLink]

/-- The `Display` loop renders exactly the chain payloads: it runs for
`ps.length` iterations, follows the strong links, and never walks past the
final node (whose `next` link merely has to exist). -/
theorem displayAux_chain {h : Heap T} :
    ∀ {ps : List Ptr} {vs : List T} {p q : Ptr} {lk : LinkType},
      dataOk h ps vs → linksOk h ps → ps.head? = some p →
      ps.getLast? = some q → nextOf h q = some (some lk) →
      displayAux h p ps.length = some vs := by
  intro ps
  induction ps with
  | nil => intro vs p q lk _ _ hh; simp at hh
  | cons x rest ih =>
      intro vs p q lk hdata hlinks hh hlast hnext
      simp only [List.head?_cons, Option.some_inj] at hh
      subst hh
      cases vs with
      | nil => exact absurd hdata (by simp [dataOk])
      | cons v vs' =>
          cases rest with
          | nil =>
              simp only [List.getLast?_singleton, Option.some_inj] at hlast
              subst hlast
              rcases nextOf_eq_some.mp hnext with ⟨n, hn, hnx⟩
              have hvd : n.data = v := by
                rcases dataOf_eq_some.mp hdata.1 with ⟨n2, hn2, hd2⟩
                rw [hn] at hn2
                cases hn2
                exact hd2
              cases vs' with
              | nil =>
                  cases lk with
                  | StrongLink sl => simp [displayAux, hn, hnx, hvd]
                  | WeakLink wl => simp [displayAux, hn, hnx, hvd]
              | cons w vs'' => exact absurd hdata (by simp [dataOk])
          | cons y rest' =>
              cases vs' with
              | nil => exact absurd hdata.2 (by simp [dataOk])
              | cons w vs'' =>
                  rcases nextOf_eq_some.mp hlinks.1.1 with ⟨n, hn, hnx⟩
                  have hvd : n.data = v := by
                    rcases dataOf_eq_some.mp hdata.1 with ⟨n2, hn2, hd2⟩
                    rw [hn] at hn2
                    cases hn2
                    exact hd2
                  have hlast' : (y :: rest').getLast? = some q := by
                    rwa [List.getLast?_cons_cons] at hlast
                  have hrec := ih hdata.2 hlinks.2 rfl hlast' hnext
                  show displayAux h x ((y :: rest').length + 1) = some (v :: w :: vs'')
                  generalize hfuel : (y :: rest').length = m at hrec ⊢
                  simp only [displayAux, hn, hnx, Option.bind_eq_bind, Option.some_bind]
                  rw [hrec]
                  simp [hvd]

/-- Under the invariant, the diagnostic rendering lists the represented
values front to back. -/
theorem display_wf {l : CdlList T} {vs : List T} (hw : Wf l vs) :
    l.display = some vs := by
  obtain ⟨ps, hsize, hplen, hhead, htail, hnd, hdata, hlinks, hwrap⟩ := hw
  cases ps with
  | nil =>
      cases vs with
      | nil => simp [CdlList.display, CdlList.is_empty, hsize]
      | cons v vs' => simp at hplen
  | cons p ps₁ =>
      cases vs with
      | nil => simp at hplen
      | cons v vs₁ =>
          have hhead' : l.head = some p := by simpa using hhead
          have hemp : l.is_empty = false := by simp [CdlList.is_empty, hsize]
          have hne : (p :: ps₁) ≠ [] := List.cons_ne_nil _ _
          have htl? : (p :: ps₁).getLast? = some ((p :: ps₁).getLast hne) :=
            List.getLast?_eq_getLast _ hne
          have hweak : isWeakLink (nextOf l.store ((p :: ps₁).getLast hne)) := by
            cases ps₁ with
            | nil =>
                have h1 := hwrap.1
                simp only [nextOf] at h1 ⊢
                exact (isWeakLink_iff.mpr ⟨p, h1⟩ : isWeakLink _)
            | cons q ps₂ => exact hwrap.1
          rcases isWeakLink_iff.mp hweak with ⟨w, hw2⟩
          have hlen : l.size = (p :: ps₁).length := by rw [hsize, hplen]
          simp only [CdlList.display, hemp, Bool.false_eq_true, if_false, hhead',
            Option.bind_eq_bind, Option.some_bind, hlen]
          exact displayAux_chain hdata hlinks rfl htl? hw2

/-- Under the invariant, `peek` reads the first / last represented value and
performs no mutation (it consumes only `&self`). -/
theorem peek_wf {l : CdlList T} {vs : List T} (hw : Wf l vs) :
    l.peek true = vs.head? ∧ l.peek false = vs.getLast? := by
  obtain ⟨ps, hsize, hplen, hhead, htail, hnd, hdata, hlinks, hwrap⟩ := hw
  cases ps with
  | nil =>
      cases vs with
      | nil => simp [CdlList.peek, CdlList.is_empty, hsize]
      | cons v vs' => simp at hplen
  | cons p ps₁ =>
      cases vs with
      | nil => simp at hplen
      | cons v vs₁ =>
          have hhead' : l.head = some p := by simpa using hhead
          have hemp : l.is_empty = false := by simp [CdlList.is_empty, hsize]
          have hne : (p :: ps₁) ≠ [] := List.cons_ne_nil _ _
          have htl? : (p :: ps₁).getLast? = some ((p :: ps₁).getLast hne) :=
            List.getLast?_eq_getLast _ hne
          have htail' : l.tail = some ((p :: ps₁).getLast hne) := by rw [htail, htl?]
          constructor
          · rcases dataOf_eq_some.mp hdata.1 with ⟨n, hn, hd⟩
            simp [CdlList.peek, hemp, hhead', hn, hd]
          · have hidx : (p :: ps₁).getLast? = (p :: ps₁)[(p :: ps₁).length - 1]? :=
              List.getLast?_eq_getElem? _
            have hdof : dataOf l.store ((p :: ps₁).getLast hne)
                = (v :: vs₁)[(p :: ps₁).length - 1]? :=
              dataOk_get hdata (by rw [← hidx, htl?])
            have hgetlast : (v :: vs₁)[(p :: ps₁).length - 1]? = (v :: vs₁).getLast? := by
              rw [List.getLast?_eq_getElem? _, hplen]
            rcases dataOf_eq_some.mp (hdof.trans (hgetlast.trans
              (List.getLast?_eq_getLast _ (List.cons_ne_nil v vs₁)))) with ⟨n, hn, hd⟩
            simp only [CdlList.peek, hemp, Bool.false_eq_true, if_false, htail',
              Option.bind_eq_bind, Option.some_bind, hn, Option.map_some', hd]
            rw [List.getLast?_eq_getLast _ (List.cons_ne_nil v vs₁)]

theorem wf_size {l : CdlList T} {vs : List T} (hw : Wf l vs) : l.size = vs.length := by
  obtain ⟨ps, h⟩ := hw
  exact h.1

/-- `insert_at` at a valid index splices the value into the sequence. -/
theorem wf_insert_at_le {l : CdlList T} {vs : List T} (hw : Wf l vs) (i : Nat) (t : T)
    (hile : i ≤ vs.length) :
    ∃ l', l.insert_at i t = some l' ∧ Wf l' (vs.take i ++ t :: vs.drop i) := by
  have hsize := wf_size hw
  cases i with
  | zero =>
      obtain ⟨l', h1, h2⟩ := wf_push_front hw t
      exact ⟨l', by simpa [CdlList.insert_at, CdlList.push_front] using h1,
        by simpa using h2⟩
  | succ k =>
      have hc0 : (k + 1 == 0) = false := by simp
      by_cases heq : k + 1 = vs.length
      · have hcs : (k + 1 == l.size) = true := by
          rw [hsize, ← heq]
          simp
        obtain ⟨l', h1, h2⟩ := wf_push_back hw t
        refine ⟨l', ?_, ?_⟩
        · simp only [CdlList.insert_at, hc0, Bool.false_eq_true, if_false, hcs, if_true]
          exact h1
        · rw [heq, List.take_length, List.drop_length]
          exact h2
      · have hlt : k + 1 < vs.length := by omega
        obtain ⟨ps, hwp⟩ := hw
        obtain ⟨l', h1, -, -, h2⟩ := insert_at_interior_wf hwp hlt t
        exact ⟨l', h1, ⟨_, h2⟩⟩

/-- `insert_at` past the end is a silent no-op. -/
theorem wf_insert_at_gt {l : CdlList T} {vs : List T} (hw : Wf l vs) {i : Nat} (t : T)
    (hgt : i > vs.length) :
    l.insert_at i t = some l := by
  have hsize := wf_size hw
  have hc0 : (i == 0) = false := by
    rw [beq_eq_false_iff_ne]
    omega
  have hcs : (i == l.size) = false := by
    rw [beq_eq_false_iff_ne, hsize]
    omega
  have hgt' : i > l.size := by
    rw [hsize]
    omega
  simp [CdlList.insert_at, hc0, hcs, hgt']

/-- `remove_at` always succeeds: out of range it is an explicit absence,
in range it extracts the `i`-th value. -/
theorem wf_remove_at {l : CdlList T} {vs : List T} (hw : Wf l vs) (i : Nat) :
    ∃ l', l.remove_at i = some (vs[i]?, l') ∧ Wf l' (vs.take i ++ vs.drop (i + 1)) := by
  have hsize := wf_size hw
  by_cases hge : vs.length ≤ i
  · refine ⟨l, ?_, ?_⟩
    · have hge' : i ≥ l.size := by
        rw [hsize]
        omega
      rw [CdlList.remove_at, if_pos hge', List.getElem?_eq_none hge]
    · rw [List.take_of_length_le hge, List.drop_eq_nil_of_le (by omega), List.append_nil]
      exact hw
  · have hlt : i < vs.length := by omega
    cases i with
    | zero =>
        have hge' : ¬ (0 ≥ l.size) := by
          rw [hsize]
          omega
        obtain ⟨l', h1, h2⟩ := wf_pop_front hw
        refine ⟨l', ?_, ?_⟩
        · rw [CdlList.remove_at, if_neg hge']
          rw [show vs[0]? = vs.head? from (List.head?_eq_getElem? _).symm]
          exact h1
        · rw [List.take_zero, List.nil_append, List.drop_one]
          exact h2
    | succ k =>
        by_cases hlast : k + 1 = vs.length - 1
        · have hge' : ¬ (k + 1 ≥ l.size) := by
            rw [hsize]
            omega
          have hc0 : (k + 1 == 0) = false := by simp
          have hcs : (k + 1 == l.size - 1) = true := by
            rw [hsize, hlast]
            simp
          have heqidx : vs[k + 1]? = vs.getLast? := by
            rw [List.getLast?_eq_getElem? _, ← hlast]
          obtain ⟨l', h1, h2⟩ := wf_pop_back hw
          refine ⟨l', ?_, ?_⟩
          · rw [CdlList.remove_at, if_neg hge']
            simp only [hc0, Bool.false_eq_true, if_false, hcs, if_true]
            rw [heqidx]
            exact h1
          · have hdp : vs.drop (k + 2) = [] := List.drop_eq_nil_of_le (by omega)
            have htk : vs.take (k + 1) = vs.dropLast := by
              rw [List.dropLast_eq_take, ← hlast]
            rw [htk, hdp, List.append_nil]
            exact h2
        · have hm : k + 2 < vs.length := by omega
          obtain ⟨ps, hwp⟩ := hw
          obtain ⟨l', h1, -, -, h2⟩ := remove_at_interior_wf hwp hm
          exact ⟨l', h1, ⟨_, h2⟩⟩

/-! ## Helper lemmas for the claims -/

/-- `exList2` is exactly the state `new(); push_back(1); push_back(2)` builds. -/
theorem exList2_reachable :
    (CdlList.new.push_back 1).bind (fun l => l.push_back 2) = some exList2 :=
  rfl

/-- `exList2` is well formed and holds `[1, 2]`. -/
theorem wf_exList2 : Wf exList2 [1, 2] :=
  ⟨[0, 1], rfl, rfl, rfl, rfl, by decide, ⟨rfl, rfl, trivial⟩,
    ⟨⟨rfl, rfl⟩, trivial⟩, ⟨trivial, trivial⟩⟩

/-- On an empty list the front and back `push` branches coincide. -/
theorem push_empty_front_back {l : CdlList T} (h : l.size = 0) (v : T) (b b' : Bool) :
    l.push v b = l.push v b' := by
  simp [CdlList.push, CdlList.is_empty, h]

/-- A well-formed list's `head`/`tail` handles are both absent exactly when
the size is zero. -/
theorem wf_handles_none_iff {l : CdlList T} {vs : List T} (hw : Wf l vs) :
    (l.head = none ∧ l.tail = none) ↔ l.size = 0 := by
  obtain ⟨ps, hsize, hplen, hhead, htail, -⟩ := hw
  constructor
  · rintro ⟨hh, -⟩
    rw [hhead, List.head?_eq_none_iff] at hh
    subst hh
    simp at hplen
    omega
  · intro h0
    have hps : ps = [] := by
      apply List.length_eq_zero.mp
      omega
    subst hps
    simp [hhead, htail]

/-- Pushing a whole sequence to the back appends it to the abstract value. -/
theorem pushAll_back_wf {l : CdlList T} {ws : List T} (hw : Wf l ws) (vs : List T) :
    ∃ l', pushAll l false vs = some l' ∧ Wf l' (ws ++ vs) := by
  induction vs generalizing l ws with
  | nil => exact ⟨l, rfl, by simpa using hw⟩
  | cons v vs ih =>
      obtain ⟨l₁, h1, hw1⟩ := wf_push_back hw v
      obtain ⟨l', h2, hw2⟩ := ih hw1
      refine ⟨l', ?_, ?_⟩
      · simp [pushAll, h1, h2]
      · simpa [List.append_assoc] using hw2

/-- Pushing a whole sequence to the front prepends its reversal. -/
theorem pushAll_front_wf {l : CdlList T} {ws : List T} (hw : Wf l ws) (vs : List T) :
    ∃ l', pushAll l true vs = some l' ∧ Wf l' (vs.reverse ++ ws) := by
  induction vs generalizing l ws with
  | nil => exact ⟨l, rfl, by simpa using hw⟩
  | cons v vs ih =>
      obtain ⟨l₁, h1, hw1⟩ := wf_push_front hw v
      obtain ⟨l', h2, hw2⟩ := ih hw1
      refine ⟨l', ?_, ?_⟩
      · simp [pushAll, h1, h2]
      · simpa [List.reverse_cons, List.append_assoc] using hw2

/-- Popping a well-formed list empty from the front returns every value in
front-to-back order. -/
theorem popN_front_wf {l : CdlList T} {vs : List T} (hw : Wf l vs) :
    popN l true vs.length = some (vs.map some) := by
  induction vs generalizing l with
  | nil => rfl
  | cons v vs ih =>
      obtain ⟨l₁, h1, hw1⟩ := wf_pop_front hw
      simp only [List.head?_cons, List.tail_cons] at h1 hw1
      rw [List.length_cons]
      simp [popN, h1, ih hw1]

/-- Any operation sequence runs panic-free from a well-formed list and keeps
the bookkeeping `length + successful pops = initial length + pushes`. -/
theorem runOps_wf {l : CdlList T} {vs : List T} (hw : Wf l vs) (ops : List (Op T)) :
    ∃ l' k vs', runOps l ops = some (l', k) ∧ Wf l' vs' ∧
      vs'.length + k = vs.length + numPushes ops := by
  induction ops generalizing l vs with
  | nil => exact ⟨l, 0, vs, rfl, hw, by simp [numPushes]⟩
  | cons op ops ih =>
      cases op with
      | pushFrontOp t =>
          obtain ⟨l₁, h1, hw1⟩ := wf_push_front hw t
          obtain ⟨l', k, vs', h2, hw2, h3⟩ := ih hw1
          refine ⟨l', k, vs', ?_, hw2, ?_⟩
          · simp [runOps, applyOp, CdlList.push_front, h1, h2]
          · simp only [numPushes, List.length_cons] at h3 ⊢
            omega
      | pushBackOp t =>
          obtain ⟨l₁, h1, hw1⟩ := wf_push_back hw t
          obtain ⟨l', k, vs', h2, hw2, h3⟩ := ih hw1
          refine ⟨l', k, vs', ?_, hw2, ?_⟩
          · simp [runOps, applyOp, CdlList.push_back, h1, h2]
          · simp only [numPushes, List.length_append, List.length_singleton] at h3 ⊢
            omega
      | popFrontOp =>
          obtain ⟨l₁, h1, hw1⟩ := wf_pop_front hw
          obtain ⟨l', k, vs', h2, hw2, h3⟩ := ih hw1
          refine ⟨l', (if vs.head?.isSome then 1 else 0) + k, vs', ?_, hw2, ?_⟩
          · simp [runOps, applyOp, CdlList.pop_front, h1, h2]
          · cases vs with
            | nil =>
                simp only [numPushes, List.length_nil, List.tail_nil, List.head?_nil,
                  Option.isSome_none, Bool.false_eq_true, if_false] at h3 ⊢
                omega
            | cons v vs₂ =>
                simp only [numPushes, List.length_cons, List.tail_cons, List.head?_cons,
                  Option.isSome_some, if_true] at h3 ⊢
                omega
      | popBackOp =>
          obtain ⟨l₁, h1, hw1⟩ := wf_pop_back hw
          obtain ⟨l', k, vs', h2, hw2, h3⟩ := ih hw1
          refine ⟨l', (if vs.getLast?.isSome then 1 else 0) + k, vs', ?_, hw2, ?_⟩
          · simp [runOps, applyOp, CdlList.pop_back, h1, h2]
          · rcases List.eq_nil_or_concat vs with rfl | ⟨ws, w, rfl⟩
            · simp only [numPushes, List.length_nil, List.dropLast_nil, List.getLast?_nil,
                Option.isSome_none, Bool.false_eq_true, if_false] at h3 ⊢
              omega
            · simp only [List.concat_eq_append] at h3 ⊢
              simp only [numPushes, List.length_append, List.length_singleton,
                List.dropLast_concat, List.getLast?_concat, Option.isSome_some,
                if_true] at h3 ⊢
              omega

/-! ## The claims -/

/-- C1: the ownership-invariant claim fails: the claim requires that after
every mutating operation the tail node's `next` is an observing link **to
the head**, but after `new(); push_front(1); push_front(2); push_front(3)`
the handle's head is node 2 and its tail is node 0, while the tail node's
`next` is an observing link to node 1 — the middle node (the head before
the last push).  The front branch of `CdlList::push` repairs the old
tail's `next` target only in its `size == 1` special case, never for
`size ≥ 2`. -/
theorem c1_tail_next_misses_head :
    threePushFront.map CdlList.head = some (some 2) ∧
    threePushFront.map CdlList.tail = some (some 0) ∧
    threePushFront.map (fun l => nextOf l.store 0) =
      some (some (some (LinkType.WeakLink 1))) ∧
    threePushFront.map (fun l => nextOf l.store 0) ≠
      some (some (some (LinkType.WeakLink 2))) :=
  ⟨rfl, rfl, rfl, by decide⟩

/-- C2: pushing `v1..vn` with `push_back` and popping `n` times with
`pop_front` yields `Some v1, ..., Some vn` in order; pushing them with
`push_front` and popping with `pop_front` yields them in reverse order. -/
theorem c2_round_trip {T : Type} (vs : List T) :
    (∃ l, pushAll CdlList.new false vs = some l ∧
      popN l true vs.length = some (vs.map some)) ∧
    (∃ l, pushAll CdlList.new true vs = some l ∧
      popN l true vs.length = some (vs.reverse.map some)) := by
  constructor
  · obtain ⟨l, h1, h2⟩ := pushAll_back_wf wf_new vs
    refine ⟨l, h1, ?_⟩
    have h3 := popN_front_wf h2
    simpa using h3
  · obtain ⟨l, h1, h2⟩ := pushAll_front_wf wf_new vs
    refine ⟨l, h1, ?_⟩
    have h3 := popN_front_wf h2
    simpa using h3

/-- C3: `remove_at` (modelled from spec §4.6; the implementation is absent
from `src/`) returns absence and leaves the list unchanged when
`index ≥ size`; on an in-range index it removes and returns the element at
that position and decrements the size; at index 0 it is `pop_front` and at
index `size-1` it is `pop_back`. -/
theorem c3_remove_at_spec {T : Type} {l : CdlList T} {vs : List T} (hw : Wf l vs)
    (i : Nat) :
    (vs.length ≤ i → l.remove_at i = some (none, l)) ∧
    (i < vs.length → ∃ l', l.remove_at i = some (vs[i]?, l') ∧
      Wf l' (vs.take i ++ vs.drop (i + 1)) ∧ l'.size = l.size - 1) ∧
    (0 < vs.length → l.remove_at 0 = l.pop_front) ∧
    (2 ≤ vs.length → l.remove_at (vs.length - 1) = l.pop_back) := by
  have hsize := wf_size hw
  refine ⟨fun hge => ?_, fun hlt => ?_, fun hpos => ?_, fun h2 => ?_⟩
  · rw [CdlList.remove_at, if_pos (by omega)]
  · obtain ⟨l', h1, hwf⟩ := wf_remove_at hw i
    refine ⟨l', h1, hwf, ?_⟩
    have hsz := wf_size hwf
    simp only [List.length_append, List.length_take, List.length_drop] at hsz
    omega
  · rw [CdlList.remove_at, if_neg (by omega)]
    rfl
  · rw [CdlList.remove_at, if_neg (by omega)]
    have hc0 : (vs.length - 1 == 0) = false := by
      rw [beq_eq_false_iff_ne]
      omega
    have hcs : (vs.length - 1 == l.size - 1) = true := by
      rw [hsize]
      simp
    simp only [hc0, Bool.false_eq_true, if_false, hcs, if_true]

/-- C4: `insert_at(0, v)` is `push_front(v)`; `insert_at(size, v)` is
`push_back(v)`; `insert_at(i, v)` with `i > size` is a silent no-op; and on
an interior index it splices `v` in at position `i` (front to back) and
increments the size by one. -/
theorem c4_insert_at_spec {T : Type} {l : CdlList T} {vs : List T} (hw : Wf l vs)
    (i : Nat) (v : T) :
    (l.insert_at 0 v = l.push_front v) ∧
    (l.insert_at vs.length v = l.push_back v) ∧
    (vs.length < i → l.insert_at i v = some l) ∧
    (0 < i → i < vs.length →
      ∃ l', l.insert_at i v = some l' ∧ Wf l' (vs.take i ++ v :: vs.drop i) ∧
        l'.size = l.size + 1) := by
  have hsize := wf_size hw
  refine ⟨rfl, ?_, fun hgt => wf_insert_at_gt hw v hgt, fun h0 hlt => ?_⟩
  · cases vs with
    | nil => exact push_empty_front_back (by simpa using hsize) v true false
    | cons w ws =>
        have hc0 : ((ws.length + 1) == 0) = false := by simp
        have hcs : ((ws.length + 1) == l.size) = true := by
          rw [hsize]
          simp
        show l.insert_at (ws.length + 1) v = l.push_back v
        simp only [CdlList.insert_at, hc0, Bool.false_eq_true, if_false, hcs, if_true]
  · cases i with
    | zero => omega
    | succ k =>
        obtain ⟨ps, hwp⟩ := hw
        obtain ⟨l', h1, -, -, h2⟩ := insert_at_interior_wf hwp hlt v
        refine ⟨l', h1, ⟨_, h2⟩, ?_⟩
        have hsz := h2.1
        simp only [List.length_append, List.length_take, List.length_cons,
          List.length_drop] at hsz
        omega

/-- C5: after any sequence of push/pop operations from `new()`, the size is
the number of pushes minus the number of pops that returned a value,
`is_empty` holds exactly when the size is 0, and the `head`/`tail` handles
are both absent exactly when the size is 0. -/
theorem c5_size_bookkeeping {T : Type} (ops : List (Op T)) :
    ∃ l k, runOps (CdlList.new : CdlList T) ops = some (l, k) ∧
      l.size + k = numPushes ops ∧
      (l.is_empty = true ↔ l.size = 0) ∧
      ((l.head = none ∧ l.tail = none) ↔ l.size = 0) := by
  obtain ⟨l, k, vs', h1, h2, h3⟩ := runOps_wf wf_new ops
  refine ⟨l, k, h1, ?_, ?_, wf_handles_none_iff h2⟩
  · have hsz := wf_size h2
    simp only [List.length_nil, Nat.zero_add] at h3
    omega
  · simp [CdlList.is_empty]

/-- C6: on an empty list, `pop_front` and `pop_back` return absence and
leave the list unchanged — no panic fires, the size stays 0 and the
`head`/`tail` handles stay absent. -/
theorem c6_pop_empty_spec {T : Type} {l : CdlList T} (hw : Wf l []) :
    l.pop_front = some (none, l) ∧ l.pop_back = some (none, l) ∧
    l.size = 0 ∧ l.head = none ∧ l.tail = none := by
  have hsize : l.size = 0 := wf_size hw
  have hht := (wf_handles_none_iff hw).mpr hsize
  exact ⟨pop_empty hsize true, pop_empty hsize false, hsize, hht.1, hht.2⟩

/-- C7: `peek_front`/`peek_back` observe the head's/tail's payload without
taking it (`peek` borrows `&self`, so the list is unchanged by
construction), and return absence exactly when the list is empty. -/
theorem c7_peek_spec {T : Type} {l : CdlList T} {vs : List T} (hw : Wf l vs) :
    l.peek_front = vs.head? ∧ l.peek_back = vs.getLast? ∧
    (l.peek_front = none ↔ vs = []) ∧ (l.peek_back = none ↔ vs = []) := by
  obtain ⟨hf, hb⟩ := peek_wf hw
  refine ⟨hf, hb, ?_, ?_⟩
  · show l.peek true = none ↔ vs = []
    rw [hf]
    exact List.head?_eq_none_iff
  · show l.peek false = none ↔ vs = []
    rw [hb]
    exact List.getLast?_eq_none_iff

/-- C8: on a valid index `i ≤ size`, `insert_at(i, v)` followed by
`remove_at(i)` (the latter modelled from spec §4.6) returns `v` and
restores the original contents and size. -/
theorem c8_insert_remove_identity {T : Type} {l : CdlList T} {vs : List T}
    (hw : Wf l vs) (i : Nat) (v : T) (hile : i ≤ vs.length) :
    ∃ l₁ l₂, l.insert_at i v = some l₁ ∧ l₁.remove_at i = some (some v, l₂) ∧
      Wf l₂ vs ∧ l₂.size = l.size := by
  obtain ⟨l₁, h1, hw1⟩ := wf_insert_at_le hw i v hile
  obtain ⟨l₂, h2, hw2⟩ := wf_remove_at hw1 i
  have hlen : (vs.take i).length = i := by
    simp [List.length_take]
    omega
  have hidx : (vs.take i ++ v :: vs.drop i)[i]? = some v := by
    rw [List.getElem?_append_right (by omega), hlen]
    simp
  have htk : (vs.take i ++ v :: vs.drop i).take i = vs.take i :=
    List.take_left' hlen
  have hdp : (vs.take i ++ v :: vs.drop i).drop (i + 1) = vs.drop i := by
    rw [show i + 1 = (vs.take i).length + 1 by omega]
    rw [show (vs.take i ++ v :: vs.drop i) = (vs.take i ++ [v]) ++ vs.drop i by simp]
    rw [show (vs.take i).length + 1 = (vs.take i ++ [v]).length by simp]
    exact List.drop_left _ _
  rw [hidx] at h2
  rw [htk, hdp, List.take_append_drop] at hw2
  refine ⟨l₁, l₂, h1, h2, hw2, ?_⟩
  rw [wf_size hw2, wf_size hw]

/-- C9: the `Display` traversal renders exactly the abstract contents in
front-to-back order: it starts at `head`, takes exactly `size` steps
(`size = vs.length`), follows only owning `next` links forward and never
treats the observing wrap edge as a further step, and (taking `&self`)
mutates nothing. -/
theorem c9_display_spec {T : Type} {l : CdlList T} {vs : List T} (hw : Wf l vs) :
    l.display = some vs ∧ l.size = vs.length :=
  ⟨display_wf hw, wf_size hw⟩

/-- C10: `insert_at` at an interior index (`0 < i < size`) succeeds and
never modifies the handle's `head` and `tail` fields. -/
theorem c10_insert_interior_frame {T : Type} {l : CdlList T} {vs : List T}
    (hw : Wf l vs) {i : Nat} (h0 : 0 < i) (hlt : i < l.size) (v : T) :
    ∃ l', l.insert_at i v = some l' ∧ l'.head = l.head ∧ l'.tail = l.tail := by
  have hsize := wf_size hw
  cases i with
  | zero => omega
  | succ k =>
      obtain ⟨ps, hwp⟩ := hw
      have hlt' : k + 1 < vs.length := by omega
      obtain ⟨l', h1, hh, ht, -⟩ := insert_at_interior_wf hwp hlt' v
      exact ⟨l', h1, hh, ht⟩

/-! ## Witnesses -/

/-- C3 at the concrete two-element list, index 1. -/
theorem c3_remove_at_spec_witness :
    (([1, 2] : List Nat).length ≤ 1 → exList2.remove_at 1 = some (none, exList2)) ∧
    (1 < ([1, 2] : List Nat).length → ∃ l', exList2.remove_at 1 = some (some 2, l') ∧
      Wf l' [1] ∧ l'.size = exList2.size - 1) ∧
    (0 < ([1, 2] : List Nat).length → exList2.remove_at 0 = exList2.pop_front) ∧
    (2 ≤ ([1, 2] : List Nat).length → exList2.remove_at 1 = exList2.pop_back) :=
  c3_remove_at_spec wf_exList2 1

/-- C4 at the concrete two-element list, index 1, value 9. -/
theorem c4_insert_at_spec_witness :
    (exList2.insert_at 0 9 = exList2.push_front 9) ∧
    (exList2.insert_at 2 9 = exList2.push_back 9) ∧
    (([1, 2] : List Nat).length < 1 → exList2.insert_at 1 9 = some exList2) ∧
    (0 < 1 → 1 < ([1, 2] : List Nat).length →
      ∃ l', exList2.insert_at 1 9 = some l' ∧ Wf l' [1, 9, 2] ∧
        l'.size = exList2.size + 1) :=
  c4_insert_at_spec wf_exList2 1 9

/-- C6 at the freshly created empty list. -/
theorem c6_pop_empty_spec_witness :
    (CdlList.new : CdlList Nat).pop_front = some (none, CdlList.new) ∧
    (CdlList.new : CdlList Nat).pop_back = some (none, CdlList.new) ∧
    (CdlList.new : CdlList Nat).size = 0 ∧
    (CdlList.new : CdlList Nat).head = none ∧
    (CdlList.new : CdlList Nat).tail = none :=
  c6_pop_empty_spec wf_new

/-- C7 at the concrete two-element list. -/
theorem c7_peek_spec_witness :
    exList2.peek_front = some 1 ∧ exList2.peek_back = some 2 ∧
    (exList2.peek_front = none ↔ ([1, 2] : List Nat) = []) ∧
    (exList2.peek_back = none ↔ ([1, 2] : List Nat) = []) :=
  c7_peek_spec wf_exList2

/-- C8 at the concrete two-element list, index 1, value 7. -/
theorem c8_insert_remove_identity_witness :
    ∃ l₁ l₂, exList2.insert_at 1 7 = some l₁ ∧ l₁.remove_at 1 = some (some 7, l₂) ∧
      Wf l₂ [1, 2] ∧ l₂.size = exList2.size :=
  c8_insert_remove_identity wf_exList2 1 7 (by decide)

/-- C9 at the concrete two-element list. -/
theorem c9_display_spec_witness :
    exList2.display = some [1, 2] ∧ exList2.size = 2 :=
  c9_display_spec wf_exList2

/-- C10 at the concrete two-element list, index 1, value 5. -/
theorem c10_insert_interior_frame_witness :
    ∃ l', exList2.insert_at 1 5 = some l' ∧ l'.head = exList2.head ∧
      l'.tail = exList2.tail :=
  c10_insert_interior_frame wf_exList2 (by decide) (by decide) 5

end CdlRs
